import Mathlib

/-!
Verification development for the eph-channel messaging library.

The C++ primitives are shallowly embedded as Lean state-transformer
functions, and the claims of the specification are settled as theorems
about those functions.  All executions considered here are sequential
(single-role interleavings): one step of the model is one complete call
of the corresponding C++ member function.

Machine integers: the C++ counters are `size_t`/`uint64_t`, i.e. residues
modulo 2^64.  States carry the ghost (unbounded, monotonic) counters; the
machine value of a counter field `c` is `c % W`, and every comparison or
subtraction the code performs is modelled on those residues (`wsub`,
`% W`), exactly as the hardware computes it.
-/

namespace Eph

/-- 2^64, the modulus of `size_t` / `uint64_t` arithmetic. -/
def W : Nat := 2 ^ 64

theorem W_pos : 0 < W := by decide

/-- 64-bit wrapping subtraction of the machine values of the ghost
counters `a` and `b`: the value the CPU computes for `a - b` on the two
64-bit registers holding `a % W` and `b % W`. -/
def wsub (a b : Nat) : Nat := (a % W + (W - b % W)) % W

theorem wsub_eq_of_le {a b : Nat} (h1 : b ≤ a) (h2 : a - b < W) :
    wsub a b = a - b := by
  unfold wsub W at *
  omega

/-- Two 64-bit registers holding `a % W` and `b % W` compare equal iff the
ghost counters are equal, provided the counters are within `W` of each
other. -/
theorem wres_eq_iff {a b : Nat} (h1 : b ≤ a) (h2 : a - b < W) :
    (a % W = b % W) ↔ a = b := by
  unfold W at *
  omega

/-- Physical slot index: the C++ `counter & (Capacity - 1)` computed on the
64-bit machine value of the ghost counter. -/
def physIdx (N c : Nat) : Nat := (c % W) &&& (N - 1)

theorem physIdx_eq {N k : Nat} (hk : N = 2 ^ k) (hk64 : k < 64) (c : Nat) :
    physIdx N c = c % N := by
  subst hk
  have hdvd : (2 : Nat) ^ k ∣ 2 ^ 64 := pow_dvd_pow 2 (Nat.le_of_lt hk64)
  simp only [physIdx, Nat.and_pow_two_sub_one_eq_mod]
  exact Nat.mod_mod_of_dvd c hdvd

theorem two_pow_lt_W {k : Nat} (hk64 : k < 64) : 2 ^ k < W := by
  unfold W
  exact Nat.pow_lt_pow_right (by omega) hk64

/-- Residues mod `N` of two distinct counters less than `N` apart differ. -/
theorem mod_ne_of_lt_of_sub_lt {N a b : Nat} (hab : a < b) (h : b - a < N) :
    a % N ≠ b % N := by
  intro hEq
  have hdvd : N ∣ b - a := (Nat.modEq_iff_dvd' (Nat.le_of_lt hab)).mp hEq
  have := Nat.eq_zero_of_dvd_of_lt hdvd h
  omega

/-!
## BoundedQueue (src/include/eph/core/queue.hpp)

SPSC bounded FIFO with shadow indices.  The state fields mirror the
C++ members: `head` is `consumer_.head_`, `shadow_tail` is
`consumer_.shadow_tail_`, `tail` is `producer_.tail_`, `shadow_head` is
`producer_.shadow_head_`, and `buf` is `buffer_` (indexed by physical
slot).  `T` is abstracted by a type `α`; a visitor with side effects on
the slot is a function `α → α`.
-/

structure BQ (α : Type) where
  head : Nat
  shadow_tail : Nat
  tail : Nat
  shadow_head : Nat
  buf : Nat → α

/-- `BoundedQueue::BoundedQueue`: indices zeroed; the payload array is
default-initialized, i.e. holds arbitrary (indeterminate) values `b0`. -/
def BQ.init (b0 : Nat → α) : BQ α :=
  ⟨0, 0, 0, 0, b0⟩

/-- `BoundedQueue::try_produce` (queue.hpp:83-113), one sequential call. -/
def BQ.try_produce (s : BQ α) (N : Nat) (writer : α → α) : Bool × BQ α :=
  let tail := s.tail
  if N ≤ wsub tail s.shadow_head then
    let head := s.head
    if N ≤ wsub tail head then
      (false, { s with shadow_head := head })
    else
      (true, { s with shadow_head := head,
                      buf := Function.update s.buf (physIdx N tail)
                               (writer (s.buf (physIdx N tail))),
                      tail := tail + 1 })
  else
    (true, { s with buf := Function.update s.buf (physIdx N tail)
                             (writer (s.buf (physIdx N tail))),
                    tail := tail + 1 })

/-- `BoundedQueue::try_push` / `try_emplace`: `try_produce` with a writer
that overwrites the slot with the given value. -/
def BQ.try_push (s : BQ α) (N : Nat) (x : α) : Bool × BQ α :=
  s.try_produce N (fun _ => x)

/-- `BoundedQueue::try_consume` (queue.hpp:193-217), one sequential call. -/
def BQ.try_consume (s : BQ α) (N : Nat) (visitor : α → α) : Bool × BQ α :=
  let head := s.head
  if s.shadow_tail % W = head % W then
    let tail := s.tail
    if head % W = tail % W then
      (false, { s with shadow_tail := tail })
    else
      (true, { s with shadow_tail := tail,
                      buf := Function.update s.buf (physIdx N head)
                               (visitor (s.buf (physIdx N head))),
                      head := head + 1 })
  else
    (true, { s with buf := Function.update s.buf (physIdx N head)
                             (visitor (s.buf (physIdx N head))),
                    head := head + 1 })

/-- `BoundedQueue::try_pop(T&)`: visitor `out = std::move(data)`; the slot
itself is not modified (trivially copyable move = copy).  Returns the
success flag, the new state, and the final value of `out`. -/
def BQ.try_pop_out (s : BQ α) (N : Nat) (out : α) : Bool × BQ α × α :=
  let r := s.try_consume N id
  if r.1 then (true, r.2, s.buf (physIdx N s.head)) else (false, r.2, out)

/-- `BoundedQueue::try_pop()`: visitor `res.emplace(std::move(data))`;
returns the optional and the new state. -/
def BQ.try_pop_opt (s : BQ α) (N : Nat) : Option α × BQ α :=
  let r := s.try_consume N id
  (if r.1 then some (s.buf (physIdx N s.head)) else none, r.2)

/-- `BoundedQueue::size()`: `tail - head` on the machine values. -/
def BQ.size (s : BQ α) : Nat := wsub s.tail s.head

/-- `BoundedQueue::capacity()`. -/
def BQ.capacity (N : Nat) : Nat := N

/-- Sequential reachability: any interleaving of complete producer and
consumer calls starting from a freshly constructed queue. -/
inductive BQ.Reach (N : Nat) : BQ α → Prop
  | init (b0 : Nat → α) : BQ.Reach N (BQ.init b0)
  | produce {s : BQ α} (writer : α → α) :
      BQ.Reach N s → BQ.Reach N (s.try_produce N writer).2
  | consume {s : BQ α} (visitor : α → α) :
      BQ.Reach N s → BQ.Reach N (s.try_consume N visitor).2

/-- The inductive state invariant of the shadow-index queue. -/
def BQ.Inv (N : Nat) (s : BQ α) : Prop :=
  s.shadow_head ≤ s.head ∧ s.head ≤ s.shadow_tail ∧ s.shadow_tail ≤ s.tail ∧
  s.tail - s.head ≤ N ∧ s.tail - s.shadow_head ≤ N

theorem BQ.inv_init (N : Nat) (b0 : Nat → α) : BQ.Inv N (BQ.init b0) := by
  simp [BQ.Inv, BQ.init]

theorem BQ.inv_produce {N : Nat} {s : BQ α} (hNW : N < W)
    (h : BQ.Inv N s) (writer : α → α) :
    BQ.Inv N (s.try_produce N writer).2 := by
  obtain ⟨h1, h2, h3, h4, h5⟩ := h
  have hsh : s.shadow_head ≤ s.tail := le_trans h1 (le_trans h2 h3)
  have hht : s.head ≤ s.tail := le_trans h2 h3
  have e1 : wsub s.tail s.shadow_head = s.tail - s.shadow_head :=
    wsub_eq_of_le hsh (lt_of_le_of_lt h5 hNW)
  have e2 : wsub s.tail s.head = s.tail - s.head :=
    wsub_eq_of_le hht (lt_of_le_of_lt h4 hNW)
  by_cases hc1 : N ≤ s.tail - s.shadow_head
  · by_cases hc2 : N ≤ s.tail - s.head
    · simp only [BQ.try_produce, e1, e2, if_pos hc1, if_pos hc2, BQ.Inv]
      exact ⟨le_refl _, h2, h3, h4, h4⟩
    · simp only [BQ.try_produce, e1, e2, if_pos hc1, if_neg hc2, BQ.Inv]
      refine ⟨le_refl _, h2, le_trans h3 (Nat.le_succ _), ?_, ?_⟩ <;> omega
  · simp only [BQ.try_produce, e1, if_neg hc1, BQ.Inv]
    refine ⟨h1, h2, le_trans h3 (Nat.le_succ _), ?_, ?_⟩ <;> omega

theorem BQ.inv_consume {N : Nat} {s : BQ α} (hNW : N < W)
    (h : BQ.Inv N s) (visitor : α → α) :
    BQ.Inv N (s.try_consume N visitor).2 := by
  obtain ⟨h1, h2, h3, h4, h5⟩ := h
  have hht : s.head ≤ s.tail := le_trans h2 h3
  have e1 : (s.shadow_tail % W = s.head % W) ↔ s.shadow_tail = s.head :=
    wres_eq_iff h2 (by omega)
  have e2 : (s.head % W = s.tail % W) ↔ s.head = s.tail := by
    rw [eq_comm, wres_eq_iff hht (lt_of_le_of_lt h4 hNW), eq_comm]
  by_cases hc1 : s.shadow_tail = s.head
  · by_cases hc2 : s.head = s.tail
    · simp only [BQ.try_consume, e1, e2, if_pos hc1, if_pos hc2, BQ.Inv]
      exact ⟨h1, le_of_eq hc2, le_refl _, h4, h5⟩
    · simp only [BQ.try_consume, e1, e2, if_pos hc1, if_neg hc2, BQ.Inv]
      have : s.head < s.tail := lt_of_le_of_ne hht hc2
      refine ⟨le_trans h1 (Nat.le_succ _), ?_, le_refl _, ?_, h5⟩ <;> omega
  · simp only [BQ.try_consume, e1, if_neg hc1, BQ.Inv]
    have : s.head < s.shadow_tail := lt_of_le_of_ne h2 (fun h => hc1 h.symm)
    refine ⟨le_trans h1 (Nat.le_succ _), ?_, h3, ?_, h5⟩ <;> omega

theorem BQ.reach_inv {N : Nat} {s : BQ α} (hNW : N < W)
    (h : BQ.Reach N s) : BQ.Inv N s := by
  induction h with
  | init b0 => exact BQ.inv_init N b0
  | produce writer _ ih => exact BQ.inv_produce hNW ih writer
  | consume visitor _ ih => exact BQ.inv_consume hNW ih visitor

theorem BQ.size_eq {N : Nat} {s : BQ α} (hNW : N < W) (h : BQ.Inv N s) :
    s.size = s.tail - s.head := by
  obtain ⟨h1, h2, h3, h4, h5⟩ := h
  exact wsub_eq_of_le (le_trans h2 h3) (lt_of_le_of_lt h4 hNW)

theorem BQ.produce_fail_iff {N : Nat} {s : BQ α} (hNW : N < W)
    (h : BQ.Inv N s) (writer : α → α) :
    (s.try_produce N writer).1 = false ↔ s.tail - s.head = N := by
  obtain ⟨h1, h2, h3, h4, h5⟩ := h
  have hsh : s.shadow_head ≤ s.tail := le_trans h1 (le_trans h2 h3)
  have hht : s.head ≤ s.tail := le_trans h2 h3
  have e1 : wsub s.tail s.shadow_head = s.tail - s.shadow_head :=
    wsub_eq_of_le hsh (lt_of_le_of_lt h5 hNW)
  have e2 : wsub s.tail s.head = s.tail - s.head :=
    wsub_eq_of_le hht (lt_of_le_of_lt h4 hNW)
  by_cases hc1 : N ≤ s.tail - s.shadow_head
  · by_cases hc2 : N ≤ s.tail - s.head
    · simp only [BQ.try_produce, e1, e2, if_pos hc1, if_pos hc2]
      simp
      omega
    · simp only [BQ.try_produce, e1, e2, if_pos hc1, if_neg hc2]
      simp
      omega
  · simp only [BQ.try_produce, e1, if_neg hc1]
    simp
    omega

theorem BQ.consume_fail_iff {N : Nat} {s : BQ α} (hNW : N < W)
    (h : BQ.Inv N s) (visitor : α → α) :
    (s.try_consume N visitor).1 = false ↔ s.head = s.tail := by
  obtain ⟨h1, h2, h3, h4, h5⟩ := h
  have hht : s.head ≤ s.tail := le_trans h2 h3
  have e1 : (s.shadow_tail % W = s.head % W) ↔ s.shadow_tail = s.head :=
    wres_eq_iff h2 (by omega)
  have e2 : (s.head % W = s.tail % W) ↔ s.head = s.tail := by
    rw [eq_comm, wres_eq_iff hht (lt_of_le_of_lt h4 hNW), eq_comm]
  by_cases hc1 : s.shadow_tail = s.head
  · by_cases hc2 : s.head = s.tail
    · simp only [BQ.try_consume, e1, e2, if_pos hc1, if_pos hc2]
      simp [hc2]
    · simp only [BQ.try_consume, e1, e2, if_pos hc1, if_neg hc2]
      simp [hc2]
  · simp only [BQ.try_consume, e1, if_neg hc1]
    simp
    omega

/-- C1: for every reachable state of the SPSC BoundedQueue in a sequential
execution, `try_produce`/`try_push`/`try_emplace` return `false` iff
`size = N` (the capacity) at the call, and `try_consume`/`try_pop` return
`false` iff `size = 0` at the call; in all other states they succeed. -/
theorem C1_boundedqueue_try_fail_iff_full_empty {α : Type} (N : Nat)
    (hNW : N < W) (s : BQ α) (hs : BQ.Reach N s)
    (writer visitor : α → α) (x out : α) :
    (((s.try_produce N writer).1 = false) ↔ s.size = BQ.capacity N) ∧
    (((s.try_push N x).1 = false) ↔ s.size = BQ.capacity N) ∧
    (((s.try_consume N visitor).1 = false) ↔ s.size = 0) ∧
    (((s.try_pop_out N out).1 = false) ↔ s.size = 0) ∧
    (((s.try_pop_opt N).1 = none) ↔ s.size = 0) := by
  have hI := BQ.reach_inv hNW hs
  have hsz := BQ.size_eq hNW hI
  have hc := BQ.consume_fail_iff hNW hI id
  have hcons : (((s.try_consume N id).1 = false) ↔ s.size = 0) := by
    rw [hc, hsz]
    obtain ⟨h1, h2, h3, h4, h5⟩ := hI
    omega
  refine ⟨?_, ?_, ?_, ?_, ?_⟩
  · rw [BQ.produce_fail_iff hNW hI writer, hsz, BQ.capacity]
  · rw [BQ.try_push, BQ.produce_fail_iff hNW hI _, hsz, BQ.capacity]
  · rw [BQ.consume_fail_iff hNW hI visitor, hsz]
    obtain ⟨h1, h2, h3, h4, h5⟩ := hI
    omega
  · by_cases hr : (s.try_consume N id).1
    · simp only [BQ.try_pop_out, if_pos hr]
      simp only [hr] at hcons
      simp at hcons ⊢
      omega
    · simp only [BQ.try_pop_out, if_neg hr]
      simp only [Bool.not_eq_true] at hr
      simp only [hr] at hcons
      simpa using hcons
  · by_cases hr : (s.try_consume N id).1
    · simp only [BQ.try_pop_opt, if_pos hr]
      simp only [hr] at hcons
      simp at hcons ⊢
      omega
    · simp only [BQ.try_pop_opt, if_neg hr]
      simp only [Bool.not_eq_true] at hr
      simp only [hr] at hcons
      simpa using hcons

theorem C1_boundedqueue_try_fail_iff_full_empty_witness :
    (4 : Nat) < W ∧
    ((((BQ.init (fun _ => (0 : Nat))).try_produce 4 id).1 = false) ↔
      (BQ.init (fun _ => (0 : Nat))).size = BQ.capacity 4) :=
  ⟨by decide,
   (C1_boundedqueue_try_fail_iff_full_empty 4 (by decide)
      (BQ.init (fun _ => (0 : Nat))) (BQ.Reach.init _) id id 0 0).1⟩

/-- C3: starting from the zero-initialized state, every sequence of
produce/consume operations preserves `tail ≥ head` and `tail - head ≤ N`
(on the ghost counters whose 64-bit residues are the machine values), so
`size() = tail - head` always lies in `[0, N]` and `capacity() = N`. -/
theorem C3_boundedqueue_counter_invariant {α : Type} (N : Nat)
    (hNW : N < W) (s : BQ α) (hs : BQ.Reach N s) :
    s.head ≤ s.tail ∧ s.tail - s.head ≤ N ∧
    s.size = s.tail - s.head ∧ s.size ≤ N ∧ BQ.capacity N = N := by
  have hI := BQ.reach_inv hNW hs
  have hsz := BQ.size_eq hNW hI
  obtain ⟨h1, h2, h3, h4, h5⟩ := hI
  exact ⟨le_trans h2 h3, h4, hsz, by omega, rfl⟩

theorem C3_boundedqueue_counter_invariant_witness :
    (4 : Nat) < W ∧
    ((BQ.init (fun _ => (0 : Nat))).head ≤ (BQ.init (fun _ => (0 : Nat))).tail ∧
     (BQ.init (fun _ => (0 : Nat))).tail - (BQ.init (fun _ => (0 : Nat))).head ≤ 4 ∧
     (BQ.init (fun _ => (0 : Nat))).size =
       (BQ.init (fun _ => (0 : Nat))).tail - (BQ.init (fun _ => (0 : Nat))).head ∧
     (BQ.init (fun _ => (0 : Nat))).size ≤ 4 ∧ BQ.capacity 4 = 4) :=
  ⟨by decide,
   C3_boundedqueue_counter_invariant 4 (by decide)
     (BQ.init (fun _ => (0 : Nat))) (BQ.Reach.init _)⟩

/-!
### FIFO contents of the queue

`contents` lists the live elements, oldest first: slot `counter % N` for
each counter in `[head, tail)`.
-/

def BQ.contents (N : Nat) (s : BQ α) : List α :=
  (List.range (s.tail - s.head)).map (fun i => s.buf ((s.head + i) % N))

/-- All `try_push` calls of a list in order (conjunction of the flags). -/
def BQ.push_all (N : Nat) : List α → BQ α → Bool × BQ α
  | [], s => (true, s)
  | x :: l, s =>
      let r := s.try_push N x
      let r2 := BQ.push_all N l r.2
      (r.1 && r2.1, r2.2)

/-- `n` successive `try_pop()` calls, collecting the returned values. -/
def BQ.pop_all (N : Nat) : Nat → BQ α → List α × BQ α
  | 0, s => ([], s)
  | n + 1, s =>
      let r := s.try_pop_opt N
      let r2 := BQ.pop_all N n r.2
      (r.1.toList ++ r2.1, r2.2)

theorem BQ.try_produce_succ_state {N : Nat} {s : BQ α} (hNW : N < W)
    (hI : BQ.Inv N s) (hsz : s.tail - s.head < N) (writer : α → α) :
    (s.try_produce N writer).1 = true ∧
    (s.try_produce N writer).2.head = s.head ∧
    (s.try_produce N writer).2.shadow_tail = s.shadow_tail ∧
    (s.try_produce N writer).2.tail = s.tail + 1 ∧
    (s.try_produce N writer).2.buf
      = Function.update s.buf (physIdx N s.tail)
          (writer (s.buf (physIdx N s.tail))) := by
  obtain ⟨h1, h2, h3, h4, h5⟩ := hI
  have hsh : s.shadow_head ≤ s.tail := le_trans h1 (le_trans h2 h3)
  have hht : s.head ≤ s.tail := le_trans h2 h3
  have e1 : wsub s.tail s.shadow_head = s.tail - s.shadow_head :=
    wsub_eq_of_le hsh (lt_of_le_of_lt h5 hNW)
  have e2 : wsub s.tail s.head = s.tail - s.head :=
    wsub_eq_of_le hht (lt_of_le_of_lt h4 hNW)
  have hc2 : ¬ N ≤ s.tail - s.head := by omega
  by_cases hc1 : N ≤ s.tail - s.shadow_head
  · simp only [BQ.try_produce, e1, e2, if_pos hc1, if_neg hc2]
    refine ⟨?_, ?_, ?_, ?_, ?_⟩ <;> trivial
  · simp only [BQ.try_produce, e1, if_neg hc1]
    refine ⟨?_, ?_, ?_, ?_, ?_⟩ <;> trivial

theorem BQ.try_consume_succ_state {N : Nat} {s : BQ α} (hNW : N < W)
    (hI : BQ.Inv N s) (hsz : 0 < s.tail - s.head) (visitor : α → α) :
    (s.try_consume N visitor).1 = true ∧
    (s.try_consume N visitor).2.head = s.head + 1 ∧
    (s.try_consume N visitor).2.tail = s.tail ∧
    (s.try_consume N visitor).2.shadow_head = s.shadow_head ∧
    (s.try_consume N visitor).2.buf
      = Function.update s.buf (physIdx N s.head)
          (visitor (s.buf (physIdx N s.head))) := by
  obtain ⟨h1, h2, h3, h4, h5⟩ := hI
  have hht : s.head ≤ s.tail := le_trans h2 h3
  have e1 : (s.shadow_tail % W = s.head % W) ↔ s.shadow_tail = s.head :=
    wres_eq_iff h2 (by omega)
  have e2 : (s.head % W = s.tail % W) ↔ s.head = s.tail := by
    rw [eq_comm, wres_eq_iff hht (lt_of_le_of_lt h4 hNW), eq_comm]
  have hc2 : ¬ s.head = s.tail := by omega
  by_cases hc1 : s.shadow_tail = s.head
  · simp only [BQ.try_consume, e1, e2, if_pos hc1, if_neg hc2]
    refine ⟨?_, ?_, ?_, ?_, ?_⟩ <;> trivial
  · simp only [BQ.try_consume, e1, if_neg hc1]
    refine ⟨?_, ?_, ?_, ?_, ?_⟩ <;> trivial

theorem BQ.contents_push {N k : Nat} (hk : N = 2 ^ k) (hk64 : k < 64)
    (head tail : Nat) (buf : Nat → α) (x : α)
    (hht : head ≤ tail) (hsz : tail - head < N) :
    (List.range (tail + 1 - head)).map
        (fun i => (Function.update buf (physIdx N tail) x) ((head + i) % N))
      = (List.range (tail - head)).map (fun i => buf ((head + i) % N)) ++ [x] := by
  have h1 : tail + 1 - head = (tail - head) + 1 := by omega
  rw [h1, List.range_succ, List.map_append]
  congr 1
  · apply List.map_congr_left
    intro i hi
    have hi' : i < tail - head := List.mem_range.mp hi
    rw [physIdx_eq hk hk64]
    exact Function.update_noteq
      (mod_ne_of_lt_of_sub_lt (by omega) (by omega)) _ _
  · have h2 : head + (tail - head) = tail := by omega
    simp only [List.map_cons, List.map_nil]
    rw [h2, physIdx_eq hk hk64, Function.update_same]

theorem BQ.contents_pop {N : Nat} (head tail : Nat) (buf : Nat → α)
    (hlt : head < tail) :
    (List.range (tail - head)).map (fun i => buf ((head + i) % N))
      = buf (head % N) ::
        (List.range (tail - (head + 1))).map (fun i => buf ((head + 1 + i) % N)) := by
  have h1 : tail - head = (tail - (head + 1)) + 1 := by omega
  rw [h1, List.range_succ_eq_map, List.map_cons, List.map_map]
  simp only [Nat.add_zero, Function.comp]
  congr 1
  apply List.map_congr_left
  intro i _
  have h2 : head + (i + 1) = head + 1 + i := by omega
  simp [Nat.succ_eq_add_one, h2]

theorem BQ.try_push_spec {N k : Nat} (hk : N = 2 ^ k) (hk64 : k < 64)
    {s : BQ α} (hI : BQ.Inv N s) (hsz : s.tail - s.head < N) (x : α) :
    (s.try_push N x).1 = true ∧
    BQ.Inv N (s.try_push N x).2 ∧
    (s.try_push N x).2.head = s.head ∧
    (s.try_push N x).2.tail = s.tail + 1 ∧
    BQ.contents N (s.try_push N x).2 = BQ.contents N s ++ [x] := by
  have hNW : N < W := hk ▸ two_pow_lt_W hk64
  obtain ⟨hf, hh, hst, ht, hb⟩ := BQ.try_produce_succ_state hNW hI hsz (fun _ => x)
  refine ⟨hf, BQ.inv_produce hNW hI _, hh, ht, ?_⟩
  unfold BQ.contents
  simp only [BQ.try_push]
  rw [hh, ht, hb]
  have hht : s.head ≤ s.tail := by
    obtain ⟨a, b, c, _, _⟩ := hI
    omega
  exact BQ.contents_push hk hk64 s.head s.tail s.buf x hht hsz

theorem BQ.try_pop_opt_spec {N k : Nat} (hk : N = 2 ^ k) (hk64 : k < 64)
    {s : BQ α} (hI : BQ.Inv N s) (hsz : 0 < s.tail - s.head) :
    (s.try_pop_opt N).1 = some (s.buf (s.head % N)) ∧
    BQ.Inv N (s.try_pop_opt N).2 ∧
    (s.try_pop_opt N).2.head = s.head + 1 ∧
    (s.try_pop_opt N).2.tail = s.tail ∧
    (s.try_pop_opt N).2.buf = s.buf ∧
    BQ.contents N s = s.buf (s.head % N) :: BQ.contents N (s.try_pop_opt N).2 := by
  have hNW : N < W := hk ▸ two_pow_lt_W hk64
  obtain ⟨hf, hh, ht, hsh, hb⟩ := BQ.try_consume_succ_state hNW hI hsz id
  have hbuf : (s.try_consume N id).2.buf = s.buf := by
    rw [hb]
    exact Function.update_eq_self _ _
  have hpop2 : (s.try_pop_opt N).2 = (s.try_consume N id).2 := rfl
  have hlt : s.head < s.tail := by omega
  refine ⟨?_, ?_, ?_, ?_, ?_, ?_⟩
  · simp only [BQ.try_pop_opt, if_pos hf, physIdx_eq hk hk64]
  · rw [hpop2]
    exact BQ.inv_consume hNW hI id
  · rw [hpop2, hh]
  · rw [hpop2, ht]
  · rw [hpop2, hbuf]
  · unfold BQ.contents
    rw [hpop2, hh, ht, hbuf]
    exact BQ.contents_pop s.head s.tail s.buf hlt

theorem BQ.push_all_spec {N k : Nat} (hk : N = 2 ^ k) (hk64 : k < 64)
    (l : List α) :
    ∀ (s : BQ α), BQ.Inv N s → s.tail - s.head + l.length ≤ N →
      (BQ.push_all N l s).1 = true ∧
      BQ.Inv N (BQ.push_all N l s).2 ∧
      (BQ.push_all N l s).2.head = s.head ∧
      (BQ.push_all N l s).2.tail = s.tail + l.length ∧
      BQ.contents N (BQ.push_all N l s).2 = BQ.contents N s ++ l := by
  induction l with
  | nil =>
      intro s hI _
      exact ⟨rfl, hI, rfl, rfl, by simp [BQ.push_all]⟩
  | cons x l ih =>
      intro s hI hle
      have hsz : s.tail - s.head < N := by
        simp only [List.length_cons] at hle
        omega
      obtain ⟨hf, hI1, hh1, ht1, hc1⟩ := BQ.try_push_spec hk hk64 hI hsz x
      have hle1 : (s.try_push N x).2.tail - (s.try_push N x).2.head + l.length ≤ N := by
        rw [ht1, hh1]
        simp only [List.length_cons] at hle
        omega
      obtain ⟨hf2, hI2, hh2, ht2, hc2⟩ := ih (s.try_push N x).2 hI1 hle1
      simp only [BQ.push_all]
      refine ⟨?_, hI2, ?_, ?_, ?_⟩
      · simp [hf, hf2]
      · rw [hh2, hh1]
      · rw [ht2, ht1]
        simp only [List.length_cons]
        omega
      · rw [hc2, hc1]
        simp

theorem BQ.pop_all_spec {N k : Nat} (hk : N = 2 ^ k) (hk64 : k < 64)
    (n : Nat) :
    ∀ (s : BQ α), BQ.Inv N s → s.tail - s.head = n →
      (BQ.pop_all N n s).1 = BQ.contents N s ∧
      BQ.Inv N (BQ.pop_all N n s).2 ∧
      (BQ.pop_all N n s).2.tail - (BQ.pop_all N n s).2.head = 0 := by
  induction n with
  | zero =>
      intro s hI h0
      refine ⟨?_, hI, h0⟩
      simp [BQ.pop_all, BQ.contents, h0]
  | succ n ih =>
      intro s hI hn
      have hsz : 0 < s.tail - s.head := by omega
      obtain ⟨hv, hI1, hh1, ht1, hb1, hc1⟩ := BQ.try_pop_opt_spec hk hk64 hI hsz
      have hn1 : (s.try_pop_opt N).2.tail - (s.try_pop_opt N).2.head = n := by
        rw [ht1, hh1]
        omega
      obtain ⟨hr1, hI2, hz⟩ := ih _ hI1 hn1
      simp only [BQ.pop_all]
      refine ⟨?_, hI2, hz⟩
      rw [hv, hr1, hc1]
      simp

/-- C2: FIFO round trip: pushing any `k ≤ N` values in order into an
initially-empty BoundedQueue succeeds at every step, and `k` pops then
yield exactly the original sequence in order, leaving the queue empty; in
particular a push followed by a pop on the initially-empty queue yields
the pushed value. -/
theorem C2_boundedqueue_fifo_roundtrip {α : Type} (N k : Nat)
    (hk : N = 2 ^ k) (hk64 : k < 64) (l : List α) (hl : l.length ≤ N)
    (b0 : Nat → α) :
    (BQ.push_all N l (BQ.init b0)).1 = true ∧
    (BQ.pop_all N l.length (BQ.push_all N l (BQ.init b0)).2).1 = l ∧
    (BQ.pop_all N l.length (BQ.push_all N l (BQ.init b0)).2).2.size = 0 ∧
    ∀ x : α, (((BQ.init b0).try_push N x).2.try_pop_opt N).1 = some x := by
  have hNW : N < W := hk ▸ two_pow_lt_W hk64
  have hc0 : BQ.contents N (BQ.init b0) = [] := by
    simp [BQ.contents, BQ.init]
  obtain ⟨hf, hI1, hh1, ht1, hcont⟩ :=
    BQ.push_all_spec hk hk64 l (BQ.init b0) (BQ.inv_init N b0) (by simpa [BQ.init] using hl)
  rw [hc0] at hcont
  simp only [List.nil_append] at hcont
  have hn1 : (BQ.push_all N l (BQ.init b0)).2.tail -
      (BQ.push_all N l (BQ.init b0)).2.head = l.length := by
    rw [ht1, hh1]
    simp [BQ.init]
  obtain ⟨hr, hI2, hz⟩ := BQ.pop_all_spec hk hk64 l.length _ hI1 hn1
  refine ⟨hf, by rw [hr, hcont], ?_, ?_⟩
  · rw [BQ.size_eq hNW hI2, hz]
  · intro x
    have hsz0 : (BQ.init b0 : BQ α).tail - (BQ.init b0 : BQ α).head < N := by
      have : 0 < N := hk ▸ pow_pos (by omega) k
      simpa [BQ.init] using this
    obtain ⟨hf1, hI1', hh1', ht1', hc1'⟩ :=
      BQ.try_push_spec hk hk64 (BQ.inv_init N b0) hsz0 x
    have hsz1 : 0 < ((BQ.init b0 : BQ α).try_push N x).2.tail -
        ((BQ.init b0 : BQ α).try_push N x).2.head := by
      rw [ht1', hh1']
      simp [BQ.init]
    obtain ⟨hv, _, _, _, _, _⟩ := BQ.try_pop_opt_spec hk hk64 hI1' hsz1
    rw [hc0] at hc1'
    simp only [List.nil_append] at hc1'
    rw [hv]
    set s1 := ((BQ.init b0 : BQ α).try_push N x).2
    have : s1.buf (s1.head % N) = x := by
      have hcc := (BQ.contents_pop s1.head s1.tail s1.buf (by omega)).symm.trans hc1'
      exact (List.cons.injEq _ _ _ _).mp hcc.symm |>.1.symm
    rw [this]

theorem C2_boundedqueue_fifo_roundtrip_witness :
    (4 = 2 ^ 2 ∧ 2 < 64 ∧ ([1, 2, 3] : List Nat).length ≤ 4) ∧
    ((BQ.push_all 4 [1, 2, 3] (BQ.init (fun _ => (0 : Nat)))).1 = true ∧
     (BQ.pop_all 4 ([1, 2, 3] : List Nat).length
        (BQ.push_all 4 [1, 2, 3] (BQ.init (fun _ => (0 : Nat)))).2).1 = [1, 2, 3] ∧
     (BQ.pop_all 4 ([1, 2, 3] : List Nat).length
        (BQ.push_all 4 [1, 2, 3] (BQ.init (fun _ => (0 : Nat)))).2).2.size = 0 ∧
     ∀ x : Nat, (((BQ.init (fun _ => (0 : Nat))).try_push 4 x).2.try_pop_opt 4).1 = some x) :=
  ⟨⟨by decide, by decide, by decide⟩,
   C2_boundedqueue_fifo_roundtrip 4 2 (by decide) (by decide) [1, 2, 3]
     (by decide) (fun _ => 0)⟩

/-!
## Plain SPSC RingBuffer (src/include/eph_channel/ring_buffer.hpp)

The same head/tail discipline without shadow indices: every call reloads
the opposite atomic index (`raw_produce` / `raw_consume`).
-/

structure PQ (α : Type) where
  head : Nat
  tail : Nat
  buf : Nat → α

def PQ.init (b0 : Nat → α) : PQ α := ⟨0, 0, b0⟩

/-- `RingBuffer::raw_produce` (ring_buffer.hpp:51-64), one sequential call. -/
def PQ.raw_produce (s : PQ α) (N : Nat) (writer : α → α) : Bool × PQ α :=
  if N ≤ wsub s.tail s.head then (false, s)
  else
    (true, { s with buf := Function.update s.buf (physIdx N s.tail)
                             (writer (s.buf (physIdx N s.tail))),
                    tail := s.tail + 1 })

/-- `RingBuffer::raw_consume` (ring_buffer.hpp:66-78), one sequential call. -/
def PQ.raw_consume (s : PQ α) (N : Nat) (visitor : α → α) : Bool × PQ α :=
  if s.head % W = s.tail % W then (false, s)
  else
    (true, { s with buf := Function.update s.buf (physIdx N s.head)
                             (visitor (s.buf (physIdx N s.head))),
                    head := s.head + 1 })

/-- Plain `RingBuffer::try_pop()`: visitor `res.emplace(data)` reads the
head slot without modifying it. -/
def PQ.try_pop_opt (s : PQ α) (N : Nat) : Option α × PQ α :=
  let r := s.raw_consume N id
  (if r.1 then some (s.buf (physIdx N s.head)) else none, r.2)

/-!
## Observable equivalence of the two queue designs (C6)
-/

/-- One queue operation: a produce with a writer visitor, or a consume
(`try_pop()`). -/
inductive Op (α : Type) where
  | produce (writer : α → α)
  | consume

/-- One observable result: a produce flag or a popped optional value. -/
inductive Out (α : Type) where
  | flag (b : Bool)
  | popped (v : Option α)
  deriving DecidableEq

def BQ.runOps (N : Nat) : List (Op α) → BQ α → List (Out α) × BQ α
  | [], s => ([], s)
  | Op.produce w :: ops, s =>
      let r := s.try_produce N w
      let r2 := BQ.runOps N ops r.2
      (Out.flag r.1 :: r2.1, r2.2)
  | Op.consume :: ops, s =>
      let r := s.try_pop_opt N
      let r2 := BQ.runOps N ops r.2
      (Out.popped r.1 :: r2.1, r2.2)

def PQ.runOps (N : Nat) : List (Op α) → PQ α → List (Out α) × PQ α
  | [], s => ([], s)
  | Op.produce w :: ops, s =>
      let r := s.raw_produce N w
      let r2 := PQ.runOps N ops r.2
      (Out.flag r.1 :: r2.1, r2.2)
  | Op.consume :: ops, s =>
      let r := s.try_pop_opt N
      let r2 := PQ.runOps N ops r.2
      (Out.popped r.1 :: r2.1, r2.2)

/-- Coupling relation: equal observable fields plus the shadow invariant. -/
def Couple (N : Nat) (s : BQ α) (p : PQ α) : Prop :=
  s.head = p.head ∧ s.tail = p.tail ∧ s.buf = p.buf ∧ BQ.Inv N s

theorem BQ.try_produce_fail_state {N : Nat} {s : BQ α} (hNW : N < W)
    (hI : BQ.Inv N s) (hfull : s.tail - s.head = N) (writer : α → α) :
    s.try_produce N writer = (false, { s with shadow_head := s.head }) := by
  obtain ⟨h1, h2, h3, h4, h5⟩ := hI
  have hsh : s.shadow_head ≤ s.tail := le_trans h1 (le_trans h2 h3)
  have hht : s.head ≤ s.tail := le_trans h2 h3
  have e1 : wsub s.tail s.shadow_head = s.tail - s.shadow_head :=
    wsub_eq_of_le hsh (lt_of_le_of_lt h5 hNW)
  have e2 : wsub s.tail s.head = s.tail - s.head :=
    wsub_eq_of_le hht (lt_of_le_of_lt h4 hNW)
  have hc1 : N ≤ s.tail - s.shadow_head := by omega
  have hc2 : N ≤ s.tail - s.head := by omega
  simp only [BQ.try_produce, e1, e2, if_pos hc1, if_pos hc2]

theorem BQ.try_consume_fail_state {N : Nat} {s : BQ α} (hNW : N < W)
    (hI : BQ.Inv N s) (hempty : s.head = s.tail) (visitor : α → α) :
    s.try_consume N visitor = (false, { s with shadow_tail := s.tail }) := by
  obtain ⟨h1, h2, h3, h4, h5⟩ := hI
  have hht : s.head ≤ s.tail := le_trans h2 h3
  have e1 : (s.shadow_tail % W = s.head % W) ↔ s.shadow_tail = s.head :=
    wres_eq_iff h2 (by omega)
  have e2 : (s.head % W = s.tail % W) ↔ s.head = s.tail := by
    rw [eq_comm, wres_eq_iff hht (lt_of_le_of_lt h4 hNW), eq_comm]
  have hc1 : s.shadow_tail = s.head := by omega
  simp only [BQ.try_consume, e1, e2, if_pos hc1, if_pos hempty]

theorem Couple.produce_step {N : Nat} {s : BQ α} {p : PQ α} (hNW : N < W)
    (h : Couple N s p) (w : α → α) :
    (s.try_produce N w).1 = (p.raw_produce N w).1 ∧
    Couple N (s.try_produce N w).2 (p.raw_produce N w).2 := by
  obtain ⟨hh, ht, hb, hI⟩ := h
  have hI' := hI
  obtain ⟨h1, h2, h3, h4, h5⟩ := hI'
  have hht : s.head ≤ s.tail := le_trans h2 h3
  have ep : wsub p.tail p.head = s.tail - s.head := by
    rw [← hh, ← ht]
    exact wsub_eq_of_le hht (lt_of_le_of_lt h4 hNW)
  by_cases hfull : s.tail - s.head = N
  · have hBQ := BQ.try_produce_fail_state hNW hI hfull w
    have hc : N ≤ wsub p.tail p.head := by omega
    have hPQ : p.raw_produce N w = (false, p) := by
      simp only [PQ.raw_produce, if_pos hc]
    rw [hBQ, hPQ]
    refine ⟨rfl, hh, ht, hb, ?_⟩
    show BQ.Inv N { s with shadow_head := s.head }
    exact ⟨le_refl _, h2, h3, h4, h4⟩
  · have hsz : s.tail - s.head < N := by omega
    obtain ⟨hf, hh', hst', ht', hb'⟩ := BQ.try_produce_succ_state hNW hI hsz w
    have hc : ¬ N ≤ wsub p.tail p.head := by omega
    have hPQ : p.raw_produce N w
        = (true, { p with buf := Function.update p.buf (physIdx N p.tail)
                                   (w (p.buf (physIdx N p.tail))),
                          tail := p.tail + 1 }) := by
      simp only [PQ.raw_produce, if_neg hc]
    rw [hPQ]
    refine ⟨by rw [hf], ?_, ?_, ?_, BQ.inv_produce hNW hI w⟩
    · rw [hh', hh]
    · rw [ht', ht]
    · rw [hb', hb, ht]

theorem Couple.consume_step {N : Nat} {s : BQ α} {p : PQ α} (hNW : N < W)
    (h : Couple N s p) :
    (s.try_pop_opt N).1 = (p.try_pop_opt N).1 ∧
    Couple N (s.try_pop_opt N).2 (p.try_pop_opt N).2 := by
  obtain ⟨hh, ht, hb, hI⟩ := h
  have hI' := hI
  obtain ⟨h1, h2, h3, h4, h5⟩ := hI'
  have hht : s.head ≤ s.tail := le_trans h2 h3
  have ep : (p.head % W = p.tail % W) ↔ s.head = s.tail := by
    rw [← hh, ← ht, eq_comm, wres_eq_iff hht (lt_of_le_of_lt h4 hNW), eq_comm]
  by_cases hempty : s.head = s.tail
  · have hBQ := BQ.try_consume_fail_state hNW hI hempty id
    have hPQ : p.raw_consume N id = (false, p) := by
      simp only [PQ.raw_consume, if_pos (ep.mpr hempty)]
    constructor
    · simp only [BQ.try_pop_opt, PQ.try_pop_opt, hBQ, hPQ]
      simp
    · simp only [BQ.try_pop_opt, PQ.try_pop_opt, hBQ, hPQ]
      exact ⟨hh, ht, hb, h1, hht, le_refl _, h4, h5⟩
  · have hsz : 0 < s.tail - s.head := by omega
    obtain ⟨hf, hh', ht', hsh', hb'⟩ := BQ.try_consume_succ_state hNW hI hsz id
    have hPQ : p.raw_consume N id
        = (true, { p with buf := Function.update p.buf (physIdx N p.head)
                                   (id (p.buf (physIdx N p.head))),
                          head := p.head + 1 }) := by
      simp only [PQ.raw_consume]
      rw [if_neg]
      intro hc
      exact hempty (ep.mp hc)
    constructor
    · simp only [BQ.try_pop_opt, PQ.try_pop_opt, hPQ, if_pos hf]
      simp [hh, hb]
    · simp only [BQ.try_pop_opt, PQ.try_pop_opt, hPQ]
      refine ⟨?_, ?_, ?_, BQ.inv_consume hNW hI id⟩
      · rw [hh', hh]
      · rw [ht', ht]
      · rw [hb', hb, hh]

theorem runOps_eq {N : Nat} (hNW : N < W) (ops : List (Op α)) :
    ∀ (s : BQ α) (p : PQ α), Couple N s p →
      (BQ.runOps N ops s).1 = (PQ.runOps N ops p).1 ∧
      Couple N (BQ.runOps N ops s).2 (PQ.runOps N ops p).2 := by
  induction ops with
  | nil => intro s p h; exact ⟨rfl, h⟩
  | cons op ops ih =>
      intro s p h
      cases op with
      | produce w =>
          obtain ⟨hfl, hcp⟩ := Couple.produce_step hNW h w
          obtain ⟨ho, hc⟩ := ih _ _ hcp
          simp only [BQ.runOps, PQ.runOps]
          exact ⟨by rw [hfl, ho], hc⟩
      | consume =>
          obtain ⟨hfl, hcp⟩ := Couple.consume_step hNW h
          obtain ⟨ho, hc⟩ := ih _ _ hcp
          simp only [BQ.runOps, PQ.runOps]
          exact ⟨by rw [hfl, ho], hc⟩

/-- C6: refinement of the shadow-index queue by the plain queue: from the
initial states, every sequence of produce/consume operations yields the
same success/failure results and delivers the same values on the
shadow-index BoundedQueue and on the design that reloads the opposite
atomic index on every call; the shadow indices never change which
operations succeed. -/
theorem C6_shadow_queue_equiv_plain_queue {α : Type} (N : Nat) (hNW : N < W)
    (ops : List (Op α)) (b0 : Nat → α) :
    (BQ.runOps N ops (BQ.init b0)).1 = (PQ.runOps N ops (PQ.init b0)).1 := by
  have hc : Couple N (BQ.init b0) (PQ.init b0) :=
    ⟨rfl, rfl, rfl, BQ.inv_init N b0⟩
  exact (runOps_eq hNW ops _ _ hc).1

theorem C6_shadow_queue_equiv_plain_queue_witness :
    (4 : Nat) < W ∧
    (BQ.runOps 4 [Op.produce (fun _ => (7 : Nat)), Op.consume, Op.consume]
        (BQ.init (fun _ => 0))).1
      = (PQ.runOps 4 [Op.produce (fun _ => (7 : Nat)), Op.consume, Op.consume]
          (PQ.init (fun _ => 0))).1 :=
  ⟨by decide,
   C6_shadow_queue_equiv_plain_queue 4 (by decide)
     [Op.produce (fun _ => (7 : Nat)), Op.consume, Op.consume] (fun _ => 0)⟩

/-!
## Atomicity of failed try-operations (C10)
-/

theorem BQ.try_produce_fail_all {N : Nat} {s : BQ α} {w : α → α} (w2 : α → α)
    (hfail : (s.try_produce N w).1 = false) :
    s.try_produce N w2 = (false, { s with shadow_head := s.head }) := by
  by_cases hc1 : N ≤ wsub s.tail s.shadow_head
  · by_cases hc2 : N ≤ wsub s.tail s.head
    · simp only [BQ.try_produce, if_pos hc1, if_pos hc2]
    · simp [BQ.try_produce, if_pos hc1, if_neg hc2] at hfail
  · simp [BQ.try_produce, if_neg hc1] at hfail

theorem BQ.try_consume_fail_all {N : Nat} {s : BQ α} {v : α → α} (v2 : α → α)
    (hfail : (s.try_consume N v).1 = false) :
    s.try_consume N v2 = (false, { s with shadow_tail := s.tail }) := by
  by_cases hc1 : s.shadow_tail % W = s.head % W
  · by_cases hc2 : s.head % W = s.tail % W
    · simp only [BQ.try_consume, if_pos hc1, if_pos hc2]
    · simp [BQ.try_consume, if_pos hc1, if_neg hc2] at hfail
  · simp [BQ.try_consume, if_neg hc1] at hfail

theorem PQ.raw_produce_fail_all {N : Nat} {p : PQ α} {w : α → α} (w2 : α → α)
    (hfail : (p.raw_produce N w).1 = false) :
    p.raw_produce N w2 = (false, p) := by
  by_cases hc : N ≤ wsub p.tail p.head
  · simp only [PQ.raw_produce, if_pos hc]
  · simp [PQ.raw_produce, if_neg hc] at hfail

theorem PQ.raw_consume_fail_all {N : Nat} {p : PQ α} {v : α → α} (v2 : α → α)
    (hfail : (p.raw_consume N v).1 = false) :
    p.raw_consume N v2 = (false, p) := by
  by_cases hc : p.head % W = p.tail % W
  · simp only [PQ.raw_consume, if_pos hc]
  · simp [PQ.raw_consume, if_neg hc] at hfail

/-- C10: whenever `try_produce` returns false (full) or
`try_consume`/`try_pop` returns false (empty), the head and tail counters
and the entire buffer are exactly as they were before the call, the
result does not depend on the visitor (it is never invoked), the
out-parameter of `try_pop(T&)` keeps its value, `try_pop()` returns an
empty optional, and only the caller's own shadow index is refreshed; the
plain (shadowless) `raw_produce`/`raw_consume` leave the state entirely
unchanged on failure. -/
theorem C10_failed_try_ops_leave_state_unchanged {α : Type} (N : Nat)
    (s1 s2 : BQ α) (p1 p2 : PQ α) (w w2 v v2 : α → α) (out : α)
    (hp : (s1.try_produce N w).1 = false)
    (hc : (s2.try_consume N v).1 = false)
    (hpp : (p1.raw_produce N w).1 = false)
    (hpc : (p2.raw_consume N v).1 = false) :
    ((s1.try_produce N w).2.head = s1.head ∧
     (s1.try_produce N w).2.tail = s1.tail ∧
     (s1.try_produce N w).2.buf = s1.buf ∧
     (s1.try_produce N w).2.shadow_tail = s1.shadow_tail ∧
     (s1.try_produce N w).2.shadow_head = s1.head ∧
     s1.try_produce N w = s1.try_produce N w2) ∧
    ((s2.try_consume N v).2.head = s2.head ∧
     (s2.try_consume N v).2.tail = s2.tail ∧
     (s2.try_consume N v).2.buf = s2.buf ∧
     (s2.try_consume N v).2.shadow_head = s2.shadow_head ∧
     (s2.try_consume N v).2.shadow_tail = s2.tail ∧
     s2.try_consume N v = s2.try_consume N v2) ∧
    ((s2.try_pop_out N out).1 = false ∧
     (s2.try_pop_out N out).2.2 = out ∧
     (s2.try_pop_out N out).2.1 = (s2.try_consume N v).2 ∧
     (s2.try_pop_opt N).1 = none) ∧
    ((p1.raw_produce N w).2 = p1 ∧ p1.raw_produce N w = p1.raw_produce N w2) ∧
    ((p2.raw_consume N v).2 = p2 ∧ p2.raw_consume N v = p2.raw_consume N v2 ∧
     (p2.try_pop_opt N).1 = none) := by
  have e1 := BQ.try_produce_fail_all (s := s1) w hp
  have e1' := BQ.try_produce_fail_all (s := s1) w2 hp
  have e2 := BQ.try_consume_fail_all (s := s2) v hc
  have e2' := BQ.try_consume_fail_all (s := s2) v2 hc
  have e2id := BQ.try_consume_fail_all (s := s2) id hc
  have e3 := PQ.raw_produce_fail_all (p := p1) w hpp
  have e3' := PQ.raw_produce_fail_all (p := p1) w2 hpp
  have e4 := PQ.raw_consume_fail_all (p := p2) v hpc
  have e4' := PQ.raw_consume_fail_all (p := p2) v2 hpc
  have e4id := PQ.raw_consume_fail_all (p := p2) id hpc
  refine ⟨⟨?_, ?_, ?_, ?_, ?_, ?_⟩, ⟨?_, ?_, ?_, ?_, ?_, ?_⟩,
          ⟨?_, ?_, ?_, ?_⟩, ⟨?_, ?_⟩, ⟨?_, ?_, ?_⟩⟩
  · rw [e1]
  · rw [e1]
  · rw [e1]
  · rw [e1]
  · rw [e1]
  · rw [e1, e1']
  · rw [e2]
  · rw [e2]
  · rw [e2]
  · rw [e2]
  · rw [e2]
  · rw [e2, e2']
  · simp [BQ.try_pop_out, e2id]
  · simp [BQ.try_pop_out, e2id]
  · simp [BQ.try_pop_out, e2id, e2]
  · simp [BQ.try_pop_opt, e2id]
  · rw [e3]
  · rw [e3, e3']
  · rw [e4]
  · rw [e4, e4']
  · simp [PQ.try_pop_opt, e4id]

theorem C10_failed_try_ops_leave_state_unchanged_witness :
    (((BQ.mk 0 0 1 0 (fun _ => (0 : Nat))).try_produce 1 id).1 = false ∧
     ((BQ.init (fun _ => (0 : Nat))).try_consume 1 id).1 = false ∧
     ((PQ.mk 0 1 (fun _ => (0 : Nat))).raw_produce 1 id).1 = false ∧
     ((PQ.mk 0 0 (fun _ => (0 : Nat))).raw_consume 1 id).1 = false) ∧
    ((BQ.mk 0 0 1 0 (fun _ => (0 : Nat))).try_produce 1 id).2.head
      = (BQ.mk 0 0 1 0 (fun _ => (0 : Nat))).head :=
  ⟨⟨by decide, by decide, by decide, by decide⟩,
   (C10_failed_try_ops_leave_state_unchanged 1
      (BQ.mk 0 0 1 0 (fun _ => (0 : Nat))) (BQ.init (fun _ => (0 : Nat)))
      (PQ.mk 0 1 (fun _ => (0 : Nat))) (PQ.mk 0 0 (fun _ => (0 : Nat)))
      id id id id 0 (by decide) (by decide) (by decide) (by decide)).1.1⟩

/-!
## SeqLockRing family (src/include/eph/core/ring_buffer.hpp,
src/include/eph/core/seq_lock_buffer.hpp, src/include/eph/core/seq_lock.hpp)

Four variants, each embedded with ghost-unbounded sequence counters
(machine value = `% W`):
* `RB`   — `RingBuffer<T,N>` (N > 1, power of two): writer-local
  `writer_index_` plus shared `global_index_`;
* `RB3`  — `RingBuffer<T,3>`: non-monotonic physical indices 0/1/2;
* `SLB`  — `SeqLockBuffer<T,N>`: the writer reloads `global_index_` itself;
* `SL`   — `SeqLock<T>` and `RingBuffer<T,1>`: a single slot, no index.
-/

structure RB (α : Type) where
  seq : Nat → Nat
  data : Nat → α
  writer_index : Nat
  global_index : Nat

def RB.init (d0 : α) : RB α := ⟨fun _ => 0, fun _ => d0, 0, 0⟩

/-- `RingBuffer::write` (ring_buffer.hpp:152-168): lock slot
(`seq+1`, odd), mutate payload, unlock (`seq+2`, even), publish
`global_index_ = next`, update the shadow `writer_index_`. -/
def RB.write (s : RB α) (N : Nat) (writer : α → α) : RB α :=
  let next := s.writer_index + 1
  let j := physIdx N next
  { seq := Function.update s.seq j (s.seq j + 2),
    data := Function.update s.data j (writer (s.data j)),
    writer_index := next,
    global_index := next }

/-- `RingBuffer::push` (ring_buffer.hpp:114-141): same protocol with
`s.data_ = val`. -/
def RB.push (s : RB α) (N : Nat) (val : α) : RB α :=
  s.write N (fun _ => val)

/-- `RingBuffer::try_read`/`try_pop_latest` (ring_buffer.hpp:184-232),
with no concurrent writer: both loads of the slot sequence read the same
state. -/
def RB.try_read (s : RB α) (N : Nat) (g : α → β) : Option β :=
  let j := physIdx N s.global_index
  let seq1 := s.seq j % W
  if seq1 &&& 1 ≠ 0 then none
  else
    let r := g (s.data j)
    let seq2 := s.seq j % W
    if seq1 = seq2 then some r else none

def RB.try_pop_latest (s : RB α) (N : Nat) : Option α := s.try_read N id

/-- Values taken by slot `i`'s sequence counter during one `write` call. -/
def RB.writeEvents (s : RB α) (N : Nat) (i : Nat) : List Nat :=
  if i = physIdx N (s.writer_index + 1) then [s.seq i + 1, s.seq i + 2] else []

def RB.runW (N : Nat) : List (α → α) → RB α → RB α
  | [], s => s
  | f :: fs, s => RB.runW N fs (s.write N f)

/-- Concatenated per-slot sequence history over a run of writes. -/
def RB.histW (N : Nat) : List (α → α) → RB α → Nat → List Nat
  | [], _, _ => []
  | f :: fs, s, i => s.writeEvents N i ++ RB.histW N fs (s.write N f) i

structure RB3 (α : Type) where
  seq : Nat → Nat
  data : Nat → α
  writer_idx : Nat
  global_idx : Nat

def RB3.init (d0 : α) : RB3 α := ⟨fun _ => 0, fun _ => d0, 0, 0⟩

/-- `RingBuffer<T,3>::next_slot` (ring_buffer.hpp:338-340). -/
def next_slot (current : Nat) : Nat :=
  if current + 1 = 3 then 0 else current + 1

/-- `RingBuffer<T,3>::write` (ring_buffer.hpp:342-364): the published
`global_idx_` is the non-monotonic physical index 0/1/2. -/
def RB3.write (s : RB3 α) (writer : α → α) : RB3 α :=
  let next := next_slot s.writer_idx
  { seq := Function.update s.seq next (s.seq next + 2),
    data := Function.update s.data next (writer (s.data next)),
    writer_idx := next,
    global_idx := next }

def RB3.push (s : RB3 α) (val : α) : RB3 α := s.write (fun _ => val)

/-- `RingBuffer<T,3>::try_read`/`try_pop_latest` (ring_buffer.hpp:374-422)
with no concurrent writer; includes the defensive `idx >= 3` check. -/
def RB3.try_read (s : RB3 α) (g : α → β) : Option β :=
  let idx := s.global_idx
  if 3 ≤ idx then none
  else
    let seq1 := s.seq idx % W
    if seq1 &&& 1 ≠ 0 then none
    else
      let r := g (s.data idx)
      let seq2 := s.seq idx % W
      if seq1 = seq2 then some r else none

def RB3.try_pop_latest (s : RB3 α) : Option α := s.try_read id

def RB3.writeEvents (s : RB3 α) (i : Nat) : List Nat :=
  if i = next_slot s.writer_idx then [s.seq i + 1, s.seq i + 2] else []

def RB3.runW : List (α → α) → RB3 α → RB3 α
  | [], s => s
  | f :: fs, s => RB3.runW fs (s.write f)

def RB3.histW : List (α → α) → RB3 α → Nat → List Nat
  | [], _, _ => []
  | f :: fs, s, i => s.writeEvents i ++ RB3.histW fs (s.write f) i

structure SLB (α : Type) where
  seq : Nat → Nat
  data : Nat → α
  global_index : Nat

def SLB.init (d0 : α) : SLB α := ⟨fun _ => 0, fun _ => d0, 0⟩

/-- `SeqLockBuffer::write` (seq_lock_buffer.hpp:98-112); `store`
(lines 69-92) is the same protocol with `s.data_ = val`.  The next index
is computed from `global_index_` itself. -/
def SLB.write (s : SLB α) (N : Nat) (writer : α → α) : SLB α :=
  let next := s.global_index + 1
  let j := physIdx N next
  { seq := Function.update s.seq j (s.seq j + 2),
    data := Function.update s.data j (writer (s.data j)),
    global_index := next }

def SLB.store (s : SLB α) (N : Nat) (val : α) : SLB α :=
  s.write N (fun _ => val)

/-- `SeqLockBuffer::try_load`/`try_read` (seq_lock_buffer.hpp:123-170)
with no concurrent writer. -/
def SLB.try_read (s : SLB α) (N : Nat) (g : α → β) : Option β :=
  let j := physIdx N s.global_index
  let seq1 := s.seq j % W
  if seq1 &&& 1 ≠ 0 then none
  else
    let r := g (s.data j)
    let seq2 := s.seq j % W
    if seq1 = seq2 then some r else none

def SLB.try_load (s : SLB α) (N : Nat) : Option α := s.try_read N id

def SLB.writeEvents (s : SLB α) (N : Nat) (i : Nat) : List Nat :=
  if i = physIdx N (s.global_index + 1) then [s.seq i + 1, s.seq i + 2] else []

def SLB.runW (N : Nat) : List (α → α) → SLB α → SLB α
  | [], s => s
  | f :: fs, s => SLB.runW N fs (s.write N f)

def SLB.histW (N : Nat) : List (α → α) → SLB α → Nat → List Nat
  | [], _, _ => []
  | f :: fs, s, i => s.writeEvents N i ++ SLB.histW N fs (s.write N f) i

structure SL (α : Type) where
  seq : Nat
  data : α

def SL.init (d0 : α) : SL α := ⟨0, d0⟩

/-- `SeqLock::write` (seq_lock.hpp:49-66) and `RingBuffer<T,1>::write`
(ring_buffer.hpp:477-496): `seq+1` (odd), mutate, `seq+2` (even). -/
def SL.write (s : SL α) (writer : α → α) : SL α :=
  ⟨s.seq + 2, writer s.data⟩

/-- `SeqLock::store` / `RingBuffer<T,1>::push`: value-copy write. -/
def SL.store (s : SL α) (val : α) : SL α := s.write (fun _ => val)

/-- `SeqLock::try_read` (seq_lock.hpp:80-106) / `RingBuffer<T,1>::try_read`
with no concurrent writer. -/
def SL.try_read (s : SL α) (g : α → β) : Option β :=
  let seq0 := s.seq % W
  if seq0 &&& 1 ≠ 0 then none
  else
    let r := g s.data
    let seq1 := s.seq % W
    if seq0 = seq1 then some r else none

/-- `SeqLock::try_load` (seq_lock.hpp:109-111). -/
def SL.try_load (s : SL α) : Option α := s.try_read id

/-- A fetch as a state transformer: `try_read` is a `const` method, so the
state component is returned unchanged. -/
def SL.try_load_st (s : SL α) : Option α × SL α := (s.try_read id, s)

def SLB.try_load_st (s : SLB α) (N : Nat) : Option α × SLB α :=
  (s.try_read N id, s)

def SL.runW : List (α → α) → SL α → SL α
  | [], s => s
  | f :: fs, s => SL.runW fs (s.write f)

/-- For an even machine sequence word, the `seq & 1` test is zero. -/
theorem even_mod_W_and_one {a : Nat} (h : a % 2 = 0) : (a % W) &&& 1 = 0 := by
  rw [Nat.and_one_is_mod]
  rw [Nat.mod_mod_of_dvd a (by decide : (2 : Nat) ∣ W)]
  exact h

theorem RB.write_seq_le_rb (s : RB α) (N : Nat) (f : α → α) (i : Nat) :
    s.seq i ≤ (s.write N f).seq i := by
  simp only [RB.write]
  by_cases h : i = physIdx N (s.writer_index + 1)
  · subst h
    rw [Function.update_same]
    omega
  · rw [Function.update_noteq h]

theorem RB.runW_seq_le_rb (N : Nat) (fs : List (α → α)) :
    ∀ (s : RB α) (i : Nat), s.seq i ≤ (RB.runW N fs s).seq i := by
  induction fs with
  | nil => intro s i; exact le_refl _
  | cons f fs ih =>
      intro s i
      exact le_trans (RB.write_seq_le_rb s N f i) (ih (s.write N f) i)

theorem RB.write_seq_eq_rb (s : RB α) (N : Nat) (f : α → α) :
    (s.write N f).seq (physIdx N (s.writer_index + 1))
      = s.seq (physIdx N (s.writer_index + 1)) + 2 := by
  simp only [RB.write]
  rw [Function.update_same]

theorem RB.histW_le_rb (N : Nat) (fs : List (α → α)) :
    ∀ (s : RB α) (i x : Nat), x ∈ RB.histW N fs s i →
      x ≤ (RB.runW N fs s).seq i := by
  induction fs with
  | nil => intro s i x hx; simp [RB.histW] at hx
  | cons f fs ih =>
      intro s i x hx
      simp only [RB.histW, List.mem_append] at hx
      rcases hx with h | h
      · unfold RB.writeEvents at h
        by_cases hij : i = physIdx N (s.writer_index + 1)
        · rw [if_pos hij] at h
          simp only [List.mem_cons, List.mem_singleton] at h
          have h2 : (s.write N f).seq i = s.seq i + 2 := by
            rw [hij]
            exact RB.write_seq_eq_rb s N f
          have h3 := RB.runW_seq_le_rb N fs (s.write N f) i
          show x ≤ (RB.runW N (f :: fs) s).seq i
          simp only [RB.runW]
          rcases h with h | h | h
          · omega
          · omega
          · simp at h
        · rw [if_neg hij] at h
          simp at h
      · have := ih (s.write N f) i x h
        simpa [RB.runW] using this

theorem RB.runW_even_rb (N : Nat) (fs : List (α → α)) :
    ∀ (s : RB α), (∀ i, s.seq i % 2 = 0) →
      ∀ i, (RB.runW N fs s).seq i % 2 = 0 := by
  induction fs with
  | nil => intro s hs i; exact hs i
  | cons f fs ih =>
      intro s hs i
      refine ih (s.write N f) ?_ i
      intro j
      simp only [RB.write]
      by_cases h : j = physIdx N (s.writer_index + 1)
      · subst h
        rw [Function.update_same]
        have := hs (physIdx N (s.writer_index + 1))
        omega
      · rw [Function.update_noteq h]
        exact hs j

theorem RB.histW_append_rb (N : Nat) (fs gs : List (α → α)) :
    ∀ (s : RB α) (i : Nat),
      RB.histW N (fs ++ gs) s i
        = RB.histW N fs s i ++ RB.histW N gs (RB.runW N fs s) i := by
  induction fs with
  | nil => intro s i; simp [RB.histW, RB.runW]
  | cons f fs ih =>
      intro s i
      have h0 : (f :: fs) ++ gs = f :: (fs ++ gs) := rfl
      rw [h0]
      simp only [RB.histW, RB.runW]
      rw [ih]
      rw [List.append_assoc]

theorem RB.runW_wi_eq_gi_rb (N : Nat) (fs : List (α → α)) :
    ∀ (s : RB α), s.writer_index = s.global_index →
      (RB.runW N fs s).writer_index = (RB.runW N fs s).global_index := by
  induction fs with
  | nil => intro s h; exact h
  | cons f fs ih => intro s _; exact ih (s.write N f) rfl

theorem SLB.write_seq_eq_slb (s : SLB α) (N : Nat) (f : α → α) :
    (s.write N f).seq (physIdx N (s.global_index + 1))
      = s.seq (physIdx N (s.global_index + 1)) + 2 := by
  simp only [SLB.write]
  rw [Function.update_same]

theorem SLB.write_seq_le_slb (s : SLB α) (N : Nat) (f : α → α) (i : Nat) :
    s.seq i ≤ (s.write N f).seq i := by
  simp only [SLB.write]
  by_cases h : i = physIdx N (s.global_index + 1)
  · subst h
    rw [Function.update_same]
    omega
  · rw [Function.update_noteq h]

theorem SLB.runW_seq_le_slb (N : Nat) (fs : List (α → α)) :
    ∀ (s : SLB α) (i : Nat), s.seq i ≤ (SLB.runW N fs s).seq i := by
  induction fs with
  | nil => intro s i; exact le_refl _
  | cons f fs ih =>
      intro s i
      exact le_trans (SLB.write_seq_le_slb s N f i) (ih (s.write N f) i)

theorem SLB.histW_le_slb (N : Nat) (fs : List (α → α)) :
    ∀ (s : SLB α) (i x : Nat), x ∈ SLB.histW N fs s i →
      x ≤ (SLB.runW N fs s).seq i := by
  induction fs with
  | nil => intro s i x hx; simp [SLB.histW] at hx
  | cons f fs ih =>
      intro s i x hx
      simp only [SLB.histW, List.mem_append] at hx
      rcases hx with h | h
      · unfold SLB.writeEvents at h
        by_cases hij : i = physIdx N (s.global_index + 1)
        · rw [if_pos hij] at h
          simp only [List.mem_cons, List.mem_singleton] at h
          have h2 : (s.write N f).seq i = s.seq i + 2 := by
            rw [hij]
            exact SLB.write_seq_eq_slb s N f
          have h3 := SLB.runW_seq_le_slb N fs (s.write N f) i
          show x ≤ (SLB.runW N (f :: fs) s).seq i
          simp only [SLB.runW]
          rcases h with h | h | h
          · omega
          · omega
          · simp at h
        · rw [if_neg hij] at h
          simp at h
      · have := ih (s.write N f) i x h
        simpa [SLB.runW] using this

theorem SLB.runW_even_slb (N : Nat) (fs : List (α → α)) :
    ∀ (s : SLB α), (∀ i, s.seq i % 2 = 0) →
      ∀ i, (SLB.runW N fs s).seq i % 2 = 0 := by
  induction fs with
  | nil => intro s hs i; exact hs i
  | cons f fs ih =>
      intro s hs i
      refine ih (s.write N f) ?_ i
      intro j
      simp only [SLB.write]
      by_cases h : j = physIdx N (s.global_index + 1)
      · subst h
        rw [Function.update_same]
        have := hs (physIdx N (s.global_index + 1))
        omega
      · rw [Function.update_noteq h]
        exact hs j

theorem SLB.histW_append_slb (N : Nat) (fs gs : List (α → α)) :
    ∀ (s : SLB α) (i : Nat),
      SLB.histW N (fs ++ gs) s i
        = SLB.histW N fs s i ++ SLB.histW N gs (SLB.runW N fs s) i := by
  induction fs with
  | nil => intro s i; simp [SLB.histW, SLB.runW]
  | cons f fs ih =>
      intro s i
      have h0 : (f :: fs) ++ gs = f :: (fs ++ gs) := rfl
      rw [h0]
      simp only [SLB.histW, SLB.runW]
      rw [ih]
      rw [List.append_assoc]

theorem RB3.write_seq_eq_rb3 (s : RB3 α) (f : α → α) :
    (s.write f).seq (next_slot s.writer_idx)
      = s.seq (next_slot s.writer_idx) + 2 := by
  simp only [RB3.write]
  rw [Function.update_same]

theorem RB3.write_seq_le_rb3 (s : RB3 α) (f : α → α) (i : Nat) :
    s.seq i ≤ (s.write f).seq i := by
  simp only [RB3.write]
  by_cases h : i = next_slot s.writer_idx
  · subst h
    rw [Function.update_same]
    omega
  · rw [Function.update_noteq h]

theorem RB3.runW_seq_le_rb3 (fs : List (α → α)) :
    ∀ (s : RB3 α) (i : Nat), s.seq i ≤ (RB3.runW fs s).seq i := by
  induction fs with
  | nil => intro s i; exact le_refl _
  | cons f fs ih =>
      intro s i
      exact le_trans (RB3.write_seq_le_rb3 s f i) (ih (s.write f) i)

theorem RB3.histW_le_rb3 (fs : List (α → α)) :
    ∀ (s : RB3 α) (i x : Nat), x ∈ RB3.histW fs s i →
      x ≤ (RB3.runW fs s).seq i := by
  induction fs with
  | nil => intro s i x hx; simp [RB3.histW] at hx
  | cons f fs ih =>
      intro s i x hx
      simp only [RB3.histW, List.mem_append] at hx
      rcases hx with h | h
      · unfold RB3.writeEvents at h
        by_cases hij : i = next_slot s.writer_idx
        · rw [if_pos hij] at h
          simp only [List.mem_cons, List.mem_singleton] at h
          have h2 : (s.write f).seq i = s.seq i + 2 := by
            rw [hij]
            exact RB3.write_seq_eq_rb3 s f
          have h3 := RB3.runW_seq_le_rb3 fs (s.write f) i
          show x ≤ (RB3.runW (f :: fs) s).seq i
          simp only [RB3.runW]
          rcases h with h | h | h
          · omega
          · omega
          · simp at h
        · rw [if_neg hij] at h
          simp at h
      · have := ih (s.write f) i x h
        simpa [RB3.runW] using this

theorem RB3.runW_even_rb3 (fs : List (α → α)) :
    ∀ (s : RB3 α), (∀ i, s.seq i % 2 = 0) →
      ∀ i, (RB3.runW fs s).seq i % 2 = 0 := by
  induction fs with
  | nil => intro s hs i; exact hs i
  | cons f fs ih =>
      intro s hs i
      refine ih (s.write f) ?_ i
      intro j
      simp only [RB3.write]
      by_cases h : j = next_slot s.writer_idx
      · subst h
        rw [Function.update_same]
        have := hs (next_slot s.writer_idx)
        omega
      · rw [Function.update_noteq h]
        exact hs j

theorem RB3.histW_append_rb3 (fs gs : List (α → α)) :
    ∀ (s : RB3 α) (i : Nat),
      RB3.histW (fs ++ gs) s i
        = RB3.histW fs s i ++ RB3.histW gs (RB3.runW fs s) i := by
  induction fs with
  | nil => intro s i; simp [RB3.histW, RB3.runW]
  | cons f fs ih =>
      intro s i
      have h0 : (f :: fs) ++ gs = f :: (fs ++ gs) := rfl
      rw [h0]
      simp only [RB3.histW, RB3.runW]
      rw [ih]
      rw [List.append_assoc]

theorem next_slot_lt (c : Nat) (h : c < 3) : next_slot c < 3 := by
  unfold next_slot
  split <;> omega

theorem RB3.runW_wi_lt (fs : List (α → α)) :
    ∀ (s : RB3 α), s.writer_idx < 3 → (RB3.runW fs s).writer_idx < 3 := by
  induction fs with
  | nil => intro s h; exact h
  | cons f fs ih =>
      intro s h
      exact ih (s.write f) (next_slot_lt _ h)

theorem RB3.runW_wi_eq_gi_rb3 (fs : List (α → α)) :
    ∀ (s : RB3 α), s.writer_idx = s.global_idx →
      (RB3.runW fs s).writer_idx = (RB3.runW fs s).global_idx := by
  induction fs with
  | nil => intro s h; exact h
  | cons f fs ih => intro s _; exact ih (s.write f) rfl

theorem SL.runW_even_sl (fs : List (α → α)) :
    ∀ (s : SL α), s.seq % 2 = 0 → (SL.runW fs s).seq % 2 = 0 := by
  induction fs with
  | nil => intro s h; exact h
  | cons f fs ih =>
      intro s h
      refine ih (s.write f) ?_
      simp only [SL.write]
      omega

theorem RB.runW_append_rb (N : Nat) (fs gs : List (α → α)) :
    ∀ s : RB α, RB.runW N (fs ++ gs) s = RB.runW N gs (RB.runW N fs s) := by
  induction fs with
  | nil => intro s; rfl
  | cons f fs ih =>
      intro s
      have h0 : (f :: fs) ++ gs = f :: (fs ++ gs) := rfl
      rw [h0]
      simp only [RB.runW]
      exact ih (s.write N f)

theorem SLB.runW_append_slb (N : Nat) (fs gs : List (α → α)) :
    ∀ s : SLB α, SLB.runW N (fs ++ gs) s = SLB.runW N gs (SLB.runW N fs s) := by
  induction fs with
  | nil => intro s; rfl
  | cons f fs ih =>
      intro s
      have h0 : (f :: fs) ++ gs = f :: (fs ++ gs) := rfl
      rw [h0]
      simp only [SLB.runW]
      exact ih (s.write N f)

theorem RB3.runW_append_rb3 (fs gs : List (α → α)) :
    ∀ s : RB3 α, RB3.runW (fs ++ gs) s = RB3.runW gs (RB3.runW fs s) := by
  induction fs with
  | nil => intro s; rfl
  | cons f fs ih =>
      intro s
      have h0 : (f :: fs) ++ gs = f :: (fs ++ gs) := rfl
      rw [h0]
      simp only [RB3.runW]
      exact ih (s.write f)

/-- C4 counterexample: on the N=3 triple-buffer specialization the third
sequential write publishes `global_idx = 0`, not the pre-call index plus
one (2 + 1 = 3): the published index is the wrapping physical `next_slot`
value, not a monotonic write index. -/
theorem C4_counterexample_triple_buffer_global_idx :
    ((((RB3.init (0 : Nat)).write (fun _ => 1)).write (fun _ => 2)).write
        (fun _ => 3)).global_idx
      ≠ (((RB3.init (0 : Nat)).write (fun _ => 1)).write
          (fun _ => 2)).writer_idx + 1 := by
  decide

/-- C4 (amended): sequentially, after a produce (push/store/write):
on `RingBuffer<T,N>` the published `global_index` equals the pre-call
`writer_index` plus one (and `writer_index = global_index` is invariant,
so it is the pre-call index plus one, a monotonic write index); on
`SeqLockBuffer<T,N>` it equals the pre-call `global_index` plus one; on
the N=3 triple buffer the published `global_idx` is `next_slot` of the
pre-call physical index — wrapping 2 → 0, not pre-call plus one.  In all
variants the just-written slot's sequence counter is even and is the
largest value that slot's sequence has ever held (its initial 0, every
intermediate odd value and every completed value of every prior write to
that slot included). -/
theorem C4_amended_seqlockring_produce_postcondition {α : Type} (N : Nat)
    (fs : List (α → α)) (f : α → α) (d0 : α) :
    (((RB.runW N fs (RB.init d0)).write N f).global_index
        = (RB.runW N fs (RB.init d0)).writer_index + 1 ∧
     (RB.runW N fs (RB.init d0)).writer_index
        = (RB.runW N fs (RB.init d0)).global_index ∧
     ((RB.runW N fs (RB.init d0)).write N f).seq
         (physIdx N ((RB.runW N fs (RB.init d0)).writer_index + 1)) % 2 = 0 ∧
     ∀ x ∈ 0 :: RB.histW N (fs ++ [f]) (RB.init d0)
         (physIdx N ((RB.runW N fs (RB.init d0)).writer_index + 1)),
       x ≤ ((RB.runW N fs (RB.init d0)).write N f).seq
         (physIdx N ((RB.runW N fs (RB.init d0)).writer_index + 1))) ∧
    (((SLB.runW N fs (SLB.init d0)).write N f).global_index
        = (SLB.runW N fs (SLB.init d0)).global_index + 1 ∧
     ((SLB.runW N fs (SLB.init d0)).write N f).seq
         (physIdx N ((SLB.runW N fs (SLB.init d0)).global_index + 1)) % 2 = 0 ∧
     ∀ x ∈ 0 :: SLB.histW N (fs ++ [f]) (SLB.init d0)
         (physIdx N ((SLB.runW N fs (SLB.init d0)).global_index + 1)),
       x ≤ ((SLB.runW N fs (SLB.init d0)).write N f).seq
         (physIdx N ((SLB.runW N fs (SLB.init d0)).global_index + 1))) ∧
    (((RB3.runW fs (RB3.init d0)).write f).global_idx
        = next_slot (RB3.runW fs (RB3.init d0)).writer_idx ∧
     ((RB3.runW fs (RB3.init d0)).write f).seq
         (next_slot (RB3.runW fs (RB3.init d0)).writer_idx) % 2 = 0 ∧
     ∀ x ∈ 0 :: RB3.histW (fs ++ [f]) (RB3.init d0)
         (next_slot (RB3.runW fs (RB3.init d0)).writer_idx),
       x ≤ ((RB3.runW fs (RB3.init d0)).write f).seq
         (next_slot (RB3.runW fs (RB3.init d0)).writer_idx)) := by
  refine ⟨⟨rfl, RB.runW_wi_eq_gi_rb N fs (RB.init d0) rfl, ?_, ?_⟩,
          ⟨rfl, ?_, ?_⟩, ⟨rfl, ?_, ?_⟩⟩
  · rw [RB.write_seq_eq_rb]
    have := RB.runW_even_rb N fs (RB.init d0) (fun _ => rfl)
      (physIdx N ((RB.runW N fs (RB.init d0)).writer_index + 1))
    omega
  · intro x hx
    rcases List.mem_cons.mp hx with h0 | h0
    · omega
    · have h1 := RB.histW_le_rb N (fs ++ [f]) (RB.init d0) _ x h0
      rw [RB.runW_append_rb N fs [f] (RB.init d0)] at h1
      simpa [RB.runW] using h1
  · rw [SLB.write_seq_eq_slb]
    have := SLB.runW_even_slb N fs (SLB.init d0) (fun _ => rfl)
      (physIdx N ((SLB.runW N fs (SLB.init d0)).global_index + 1))
    omega
  · intro x hx
    rcases List.mem_cons.mp hx with h0 | h0
    · omega
    · have h1 := SLB.histW_le_slb N (fs ++ [f]) (SLB.init d0) _ x h0
      rw [SLB.runW_append_slb N fs [f] (SLB.init d0)] at h1
      simpa [SLB.runW] using h1
  · rw [RB3.write_seq_eq_rb3]
    have := RB3.runW_even_rb3 fs (RB3.init d0) (fun _ => rfl)
      (next_slot (RB3.runW fs (RB3.init d0)).writer_idx)
    omega
  · intro x hx
    rcases List.mem_cons.mp hx with h0 | h0
    · omega
    · have h1 := RB3.histW_le_rb3 (fs ++ [f]) (RB3.init d0) _ x h0
      rw [RB3.runW_append_rb3 fs [f] (RB3.init d0)] at h1
      simpa [RB3.runW] using h1

/-- C5: sequentially, for every reachable state of every variant,
publishing `x` and then fetching with no intervening write succeeds and
yields exactly `x` (for a visitor read, the visitor receives exactly `x`);
and a fetch is `const` — it leaves the state unchanged, so two successive
fetches with no intervening publish return equal values. -/
theorem C5_seqlock_publish_fetch_roundtrip {α β : Type} (N : Nat)
    (fs : List (α → α)) (x : α) (d0 : α) (g : α → β) :
    ((SL.runW fs (SL.init d0)).store x).try_load = some x ∧
    ((SL.runW fs (SL.init d0)).store x).try_read g = some (g x) ∧
    (∀ s : SL α, s.try_load_st.2 = s ∧
      s.try_load_st.2.try_load_st.1 = s.try_load_st.1) ∧
    ((SLB.runW N fs (SLB.init d0)).store N x).try_load N = some x ∧
    (∀ s : SLB α, (s.try_load_st N).2 = s ∧
      ((s.try_load_st N).2.try_load_st N).1 = (s.try_load_st N).1) ∧
    ((RB.runW N fs (RB.init d0)).push N x).try_pop_latest N = some x ∧
    ((RB3.runW fs (RB3.init d0)).push x).try_pop_latest = some x := by
  have hevSL : (SL.runW fs (SL.init d0)).seq % 2 = 0 :=
    SL.runW_even_sl fs (SL.init d0) rfl
  have h1 : (((SL.runW fs (SL.init d0)).seq + 2) % W) &&& 1 = 0 :=
    even_mod_W_and_one (by omega)
  refine ⟨?_, ?_, ?_, ?_, ?_, ?_, ?_⟩
  · simp [SL.try_load, SL.try_read, SL.store, SL.write, h1]
  · simp [SL.try_read, SL.store, SL.write, h1]
  · intro s
    exact ⟨rfl, rfl⟩
  · have hev : ∀ i, (SLB.runW N fs (SLB.init d0)).seq i % 2 = 0 :=
      SLB.runW_even_slb N fs (SLB.init d0) (fun _ => rfl)
    set s := SLB.runW N fs (SLB.init d0) with hs
    have hseq := SLB.write_seq_eq_slb s N (fun _ => x)
    have hdata : (s.write N (fun _ => x)).data (physIdx N (s.global_index + 1))
        = x := by
      simp only [SLB.write]
      rw [Function.update_same]
    have hglob : (s.write N (fun _ => x)).global_index = s.global_index + 1 := rfl
    have h2 : ((s.seq (physIdx N (s.global_index + 1)) + 2) % W) &&& 1 = 0 :=
      even_mod_W_and_one (by have := hev (physIdx N (s.global_index + 1)); omega)
    simp only [SLB.store, SLB.try_load, SLB.try_read, hglob, hseq, hdata]
    simp [h2]
  · intro s
    exact ⟨rfl, rfl⟩
  · have hev : ∀ i, (RB.runW N fs (RB.init d0)).seq i % 2 = 0 :=
      RB.runW_even_rb N fs (RB.init d0) (fun _ => rfl)
    set s := RB.runW N fs (RB.init d0) with hs
    have hseq := RB.write_seq_eq_rb s N (fun _ => x)
    have hdata : (s.write N (fun _ => x)).data (physIdx N (s.writer_index + 1))
        = x := by
      simp only [RB.write]
      rw [Function.update_same]
    have hglob : (s.write N (fun _ => x)).global_index = s.writer_index + 1 := rfl
    have h2 : ((s.seq (physIdx N (s.writer_index + 1)) + 2) % W) &&& 1 = 0 :=
      even_mod_W_and_one (by have := hev (physIdx N (s.writer_index + 1)); omega)
    simp only [RB.push, RB.try_pop_latest, RB.try_read, hglob, hseq, hdata]
    simp [h2]
  · have hev : ∀ i, (RB3.runW fs (RB3.init d0)).seq i % 2 = 0 :=
      RB3.runW_even_rb3 fs (RB3.init d0) (fun _ => rfl)
    set s := RB3.runW fs (RB3.init d0) with hs
    have hJ : next_slot s.writer_idx < 3 :=
      next_slot_lt _ (RB3.runW_wi_lt fs (RB3.init d0) (by show (0 : Nat) < 3; omega))
    have hseq := RB3.write_seq_eq_rb3 s (fun _ => x)
    have hdata : (s.write (fun _ => x)).data (next_slot s.writer_idx) = x := by
      simp only [RB3.write]
      rw [Function.update_same]
    have hglob : (s.write (fun _ => x)).global_idx = next_slot s.writer_idx := rfl
    have h2 : ((s.seq (next_slot s.writer_idx) + 2) % W) &&& 1 = 0 :=
      even_mod_W_and_one (by have := hev (next_slot s.writer_idx); omega)
    simp only [RB3.push, RB3.try_pop_latest, RB3.try_read, hglob, hseq, hdata]
    rw [if_neg (by omega)]
    simp [h2]

/-!
## SharedMemory mapping sizes (src/include/eph_channel/shared_memory.hpp,
src/include/eph/core/shared_memory.hpp)
-/

def CACHE_LINE_SIZE : Nat := 64

def HUGE_PAGE_SIZE : Nat := 2 * 1024 * 1024

/-- Modelled from the spec: the ordinary page unit ("the ordinary page
size otherwise", 4 KiB on this platform).  The code itself never consults
the page size; this constant exists only to state the spec's formula. -/
def PAGE_SIZE : Nat := 4096

/-- Mathematical round-up to a multiple of `unit`. -/
def roundUp (unit size : Nat) : Nat := (size + unit - 1) / unit * unit

/-- `align_up<Alignment>(size)` (eph_channel/shared_memory.hpp:20-25,
eph/types.hpp:36-40): `(size + Alignment - 1) & ~(Alignment - 1)` in
64-bit `size_t` arithmetic (the mask `~(Alignment - 1)` is `W - Alignment`). -/
def cpp_align_up (alignment size : Nat) : Nat :=
  ((size + alignment - 1) % W) &&& (W - alignment)

theorem land_highmask_eq {x j : Nat} (hj : j ≤ 64) (hx : x < W) :
    x &&& (W - 2 ^ j) = x / 2 ^ j * 2 ^ j := by
  have hmask : W - 2 ^ j = (2 ^ (64 - j) - 1) <<< j := by
    rw [Nat.shiftLeft_eq, Nat.sub_mul, ← pow_add, one_mul]
    unfold W
    congr 2
    omega
  have hdiv : x / 2 ^ j * 2 ^ j = (x >>> j) <<< j := by
    rw [Nat.shiftRight_eq_div_pow, Nat.shiftLeft_eq]
  rw [hmask, hdiv]
  apply Nat.eq_of_testBit_eq
  intro i
  rw [Nat.testBit_land, Nat.testBit_shiftLeft, Nat.testBit_shiftLeft,
      Nat.testBit_shiftRight, Nat.testBit_two_pow_sub_one]
  by_cases hij : j ≤ i
  · by_cases hi64 : i < 64
    · have h1 : i - j < 64 - j := by omega
      have h2 : j + (i - j) = i := by omega
      simp [hij, h1, h2, ge_iff_le]
    · have hxi : x.testBit i = false := by
        apply Nat.testBit_lt_two_pow
        calc x < W := hx
          _ = 2 ^ 64 := rfl
          _ ≤ 2 ^ i := Nat.pow_le_pow_right (by omega) (by omega)
      have h2 : j + (i - j) = i := by omega
      simp [hij, h2, hxi, ge_iff_le]
  · simp [hij, ge_iff_le]

theorem cpp_align_up_eq {j size : Nat} (hj : j ≤ 64)
    (hbound : size + 2 ^ j - 1 < W) :
    cpp_align_up (2 ^ j) size = roundUp (2 ^ j) size := by
  unfold cpp_align_up roundUp
  rw [Nat.mod_eq_of_lt hbound]
  exact land_highmask_eq hj hbound

theorem le_roundUp {a : Nat} (ha : 0 < a) (s : Nat) : s ≤ roundUp a s := by
  unfold roundUp
  rw [Nat.mul_comm]
  have h := Nat.div_add_mod (s + a - 1) a
  have h1 : (s + a - 1) % a < a := Nat.mod_lt _ ha
  omega

theorem dvd_roundUp (a s : Nat) : a ∣ roundUp a s :=
  dvd_mul_left a _

theorem roundUp_le_of_le_of_dvd {a m s : Nat} (ha : 0 < a) (hdvd : a ∣ m)
    (hm : s ≤ m) : roundUp a s ≤ m := by
  obtain ⟨t, rfl⟩ := hdvd
  unfold roundUp
  have hq : (s + a - 1) / a ≤ t := by
    rw [Nat.div_le_iff_le_mul_add_pred ha]
    omega
  calc (s + a - 1) / a * a ≤ t * a := Nat.mul_le_mul_right a hq
    _ = a * t := Nat.mul_comm t a

theorem roundUp_roundUp {a b : Nat} (ha : 0 < a) (hb : 0 < b)
    (hdvd : a ∣ b) (s : Nat) :
    roundUp b (roundUp a s) = roundUp b s := by
  apply Nat.le_antisymm
  · apply roundUp_le_of_le_of_dvd hb (dvd_roundUp b s)
    exact roundUp_le_of_le_of_dvd ha (hdvd.trans (dvd_roundUp b s)) (le_roundUp hb s)
  · exact roundUp_le_of_le_of_dvd hb (dvd_roundUp b (roundUp a s))
      (le_trans (le_roundUp ha s) (le_roundUp hb (roundUp a s)))

/-- Alignment of the `data` member of `SharedMemory::Layout`
(`alignas(alignof(T) > CACHE_LINE_SIZE ? alignof(T) : CACHE_LINE_SIZE)`,
eph_channel/shared_memory.hpp:82-90; the eph/core layout uses the same
max(alignof(T), cache line) alignment). -/
def payloadAlign (alignT : Nat) : Nat := max alignT CACHE_LINE_SIZE

/-- Offset of the payload in `Layout`: the atomic flag occupies offset 0
and `data` is placed at the next multiple of its alignment (C++ standard
layout rule, with `payloadAlign ≥ 64 > 1`). -/
def offset_of_payload (alignT : Nat) : Nat := payloadAlign alignT

/-- `sizeof(Layout)`: the end of `data` rounded up to
`alignof(Layout) = payloadAlign` (C++ layout rule). -/
def sizeof_layout (sizeofT alignT : Nat) : Nat :=
  roundUp (payloadAlign alignT) (offset_of_payload alignT + sizeofT)

/-- Size computation of `SharedMemory::open_and_map`
(eph_channel/shared_memory.hpp:128-135): `raw_size = sizeof(Layout)`,
rounded up to the huge-page size only when huge pages are requested.
This is the Owner's `ftruncate` size and the `mmap` length; the eph/core
constructor (eph/core/shared_memory.hpp:164-172) computes the same
value. -/
def map_size (sizeofT alignT : Nat) (use_huge_pages : Bool) : Nat :=
  let raw_size := sizeof_layout sizeofT alignT
  if use_huge_pages then cpp_align_up HUGE_PAGE_SIZE raw_size else raw_size

/-- Modelled from the spec: total mapped size
`round_up(offset_of_payload + sizeof(T), page_size_or_huge_page_size)`. -/
def spec_map_size (sizeofT alignT : Nat) (use_huge_pages : Bool) : Nat :=
  roundUp (if use_huge_pages then HUGE_PAGE_SIZE else PAGE_SIZE)
    (offset_of_payload alignT + sizeofT)

/-- C7 counterexample: for a payload with `sizeof(T) = alignof(T) = 8`
and ordinary pages, the code maps `sizeof(Layout) = 128` bytes, whereas
the claimed formula rounds up to the 4 KiB page unit and yields 4096. -/
theorem C7_counterexample_map_size_not_page_rounded :
    map_size 8 8 false ≠ spec_map_size 8 8 false := by
  decide

/-- C7 (amended): for ordinary pages the mapped (and Owner-ftruncated)
size is exactly `sizeof(Layout)` — it is not rounded up to the page
size; when huge pages are requested it is
`round_up(sizeof(Layout), 2 MiB)`, which equals the claimed
`round_up(offset_of_payload + sizeof(T), 2 MiB)`. -/
theorem C7_amended_mapped_size (sizeofT a : Nat) (ha : a ≤ 21)
    (hbound : sizeof_layout sizeofT (2 ^ a) + HUGE_PAGE_SIZE - 1 < W) :
    map_size sizeofT (2 ^ a) false = sizeof_layout sizeofT (2 ^ a) ∧
    map_size sizeofT (2 ^ a) true = spec_map_size sizeofT (2 ^ a) true := by
  constructor
  · rfl
  · have hA : payloadAlign (2 ^ a) = 2 ^ (max a 6) := by
      unfold payloadAlign CACHE_LINE_SIZE
      rcases Nat.le_total a 6 with h | h
      · have h64 : (2 : Nat) ^ a ≤ 64 := by
          calc (2 : Nat) ^ a ≤ 2 ^ 6 := Nat.pow_le_pow_right (by omega) h
            _ = 64 := by norm_num
        rw [Nat.max_eq_right h, Nat.max_eq_right h64]
        norm_num
      · have h64 : (64 : Nat) ≤ 2 ^ a := by
          calc (64 : Nat) = 2 ^ 6 := by norm_num
            _ ≤ 2 ^ a := Nat.pow_le_pow_right (by omega) h
        rw [Nat.max_eq_left h, Nat.max_eq_left h64]
    have hHuge : HUGE_PAGE_SIZE = 2 ^ 21 := by norm_num [HUGE_PAGE_SIZE]
    have hAdvd : payloadAlign (2 ^ a) ∣ HUGE_PAGE_SIZE := by
      rw [hA, hHuge]
      exact pow_dvd_pow 2 (by omega)
    have hA0 : 0 < payloadAlign (2 ^ a) := by
      rw [hA]
      exact Nat.pos_pow_of_pos _ (by omega)
    have hstep : cpp_align_up HUGE_PAGE_SIZE (sizeof_layout sizeofT (2 ^ a))
        = roundUp HUGE_PAGE_SIZE (sizeof_layout sizeofT (2 ^ a)) := by
      rw [hHuge]
      exact cpp_align_up_eq (by omega) (by rw [← hHuge]; exact hbound)
    show cpp_align_up HUGE_PAGE_SIZE (sizeof_layout sizeofT (2 ^ a))
      = spec_map_size sizeofT (2 ^ a) true
    rw [hstep]
    unfold sizeof_layout spec_map_size
    rw [if_pos rfl]
    exact roundUp_roundUp hA0 (by rw [hHuge]; exact Nat.pos_pow_of_pos _ (by omega))
      hAdvd _

theorem C7_amended_mapped_size_witness :
    ((3 : Nat) ≤ 21 ∧
     sizeof_layout 8 (2 ^ 3) + HUGE_PAGE_SIZE - 1 < W) ∧
    (map_size 8 (2 ^ 3) false = sizeof_layout 8 (2 ^ 3) ∧
     map_size 8 (2 ^ 3) true = spec_map_size 8 (2 ^ 3) true) :=
  ⟨⟨by decide, by decide⟩,
   C7_amended_mapped_size 8 3 (by decide) (by decide)⟩

/-!
## SharedMemory initialization handshake (C8)
-/

inductive AttachResult where
  | ok
  | timeout
  deriving DecidableEq

/-- Non-Owner wait loop of `SharedMemory::open_and_map`
(eph_channel/shared_memory.hpp:180-189): `flag i` is the value the
`initialized` load returns on the `i`-th loop iteration; the loop throws
the timeout error when `++retries > 1000`, i.e. on the 1001st failed
load.  `fuel` counts the failed loads still allowed. -/
def chan_wait_go (flag : Nat → Bool) : Nat → Nat → AttachResult
  | 0, _ => AttachResult.timeout
  | fuel + 1, i =>
      if flag i then AttachResult.ok else chan_wait_go flag fuel (i + 1)

def chan_init_wait (flag : Nat → Bool) : AttachResult :=
  chan_wait_go flag 1001 0

/-- Non-Owner wait loop of `SharedMemory::initialize_layout`
(eph/core/shared_memory.hpp:248-253): the loop has no retry bound and no
error exit.  `core_init_wait flag n` is `some ()` when the loop has
exited within `n` iterations and `none` when it is still waiting; the
return type has no error alternative because the code has none. -/
def core_init_wait (flag : Nat → Bool) : Nat → Option Unit
  | 0 => none
  | n + 1 =>
      if flag 0 then some () else core_init_wait (fun i => flag (i + 1)) n

theorem core_init_wait_false : ∀ n, core_init_wait (fun _ => false) n = none := by
  intro n
  induction n with
  | zero => rfl
  | succ n ih => simpa [core_init_wait] using ih

theorem chan_wait_go_never {flag : Nat → Bool} (hf : ∀ i, flag i = false) :
    ∀ fuel i, chan_wait_go flag fuel i = AttachResult.timeout := by
  intro fuel
  induction fuel with
  | zero => intro i; rfl
  | succ fuel ih =>
      intro i
      simp only [chan_wait_go, hf i, if_neg]
      exact ih (i + 1)

theorem chan_wait_go_ok {flag : Nat → Bool} :
    ∀ fuel i, chan_wait_go flag fuel i = AttachResult.ok →
      ∃ m, m < fuel ∧ flag (i + m) = true := by
  intro fuel
  induction fuel with
  | zero => intro i h; exact absurd h (by simp [chan_wait_go])
  | succ fuel ih =>
      intro i h
      by_cases hf : flag i
      · exact ⟨0, by omega, by simpa using hf⟩
      · simp only [chan_wait_go, if_neg hf] at h
        obtain ⟨m, hm, hfl⟩ := ih (i + 1) h
        exact ⟨m + 1, by omega, by simpa [Nat.add_assoc, Nat.add_comm 1 m] using hfl⟩

theorem chan_wait_go_of_true {flag : Nat → Bool} :
    ∀ fuel i, (∃ m, m < fuel ∧ flag (i + m) = true) →
      chan_wait_go flag fuel i = AttachResult.ok := by
  intro fuel
  induction fuel with
  | zero => intro i h; obtain ⟨m, hm, _⟩ := h; omega
  | succ fuel ih =>
      intro i h
      by_cases hf : flag i
      · simp [chan_wait_go, hf]
      · simp only [chan_wait_go, if_neg hf]
        obtain ⟨m, hm, hfl⟩ := h
        rcases m with _ | m
        · simp at hfl
          exact absurd hfl hf
        · refine ih (i + 1) ⟨m, by omega, ?_⟩
          simpa [Nat.add_assoc, Nat.add_comm 1 m] using hfl

/-- C8 counterexample: with an `initialized` flag that never becomes
true, the eph/core attach wait loop is still running after 1,000,000
iterations (it has no timeout branch at all), even though the claimed
bounded retry budget — as implemented by the eph_channel variant — is
exhausted after 1001 loads. -/
theorem C8_counterexample_core_wait_never_times_out :
    core_init_wait (fun _ => false) 1000000 = none ∧
    chan_init_wait (fun _ => false) = AttachResult.timeout :=
  ⟨core_init_wait_false 1000000,
   chan_wait_go_never (fun _ => rfl) 1001 0⟩

/-- C8 (amended): in the eph_channel implementation a non-Owner attach
whose `initialized` flag never becomes true fails with the distinct
initialization-timeout error after its bounded budget of 1001 flag
loads; it returns success only after actually observing the flag true
(within the first 1001 loads), and any true observation within the
budget yields success.  The eph/core implementation's wait loop has no
retry bound: with the flag never true it is still waiting after every
finite number of iterations and never surfaces an error. -/
theorem C8_amended_attach_initialization_wait (flag : Nat → Bool) :
    ((∀ i, flag i = false) → chan_init_wait flag = AttachResult.timeout) ∧
    (chan_init_wait flag = AttachResult.ok →
      ∃ i, i ≤ 1000 ∧ flag i = true) ∧
    (∀ i, i ≤ 1000 → flag i = true →
      chan_init_wait flag = AttachResult.ok) ∧
    (∀ n, core_init_wait (fun _ => false) n = none) := by
  refine ⟨?_, ?_, ?_, core_init_wait_false⟩
  · intro hf
    exact chan_wait_go_never hf 1001 0
  · intro h
    obtain ⟨m, hm, hfl⟩ := chan_wait_go_ok 1001 0 h
    exact ⟨m, by omega, by simpa using hfl⟩
  · intro i hi hfl
    exact chan_wait_go_of_true 1001 0 ⟨i, by omega, by simpa using hfl⟩

/-!
## Shared-memory path resolution (C9)

Strings are modelled as `List Char`.  `lexically_normal` implements the
C++ `std::filesystem::path::lexically_normal` algorithm for POSIX paths
without root-names: separator runs collapse, dot components are removed
(leaving a trailing separator when a trailing dot followed one), a
non-dot-dot component followed by dot-dot is removed (leaving the
preceding separator, hence a trailing separator when the pair was last),
dot-dots directly under the root are removed, a trailing separator after
a final surviving dot-dot is removed, and an empty result becomes ".".
-/

/-- Prepend a character to the first component. -/
def consHead (c : Char) : List (List Char) → List (List Char)
  | [] => [[c]]
  | h :: t => (c :: h) :: t

/-- Split a path at every `/`; empty components mark leading, doubled and
trailing separators.  The result is always nonempty. -/
def splitSlash : List Char → List (List Char)
  | [] => [[]]
  | c :: rest =>
      if c = '/' then [] :: splitSlash rest
      else consHead c (splitSlash rest)

/-- Dot-dot elimination pass (rules 5-6 of `lexically_normal`), with an
accumulator holding the already-kept components in reverse. -/
def elimDotDots (isAbs : Bool) : List (List Char) → List (List Char) → List (List Char)
  | acc, [] => acc.reverse
  | acc, c :: rest =>
      if c = ['.', '.'] then
        if acc = [] then
          if isAbs then elimDotDots isAbs [] rest
          else elimDotDots isAbs [c] rest
        else if acc.head? = some ['.', '.'] then elimDotDots isAbs (c :: acc) rest
        else elimDotDots isAbs acc.tail rest
      else elimDotDots isAbs (c :: acc) rest

/-- Join components with single separators. -/
def joinSlash : List (List Char) → List Char
  | [] => []
  | [c] => c
  | c :: c' :: rest => c ++ '/' :: joinSlash (c' :: rest)

/-- The part of `lexically_normal` that depends only on the nonempty
non-dot components, the trailing-separator flag after dot removal, and
absoluteness. -/
def lexNormBody (isAbs : Bool) (comps1 : List (List Char)) (T1 : Bool) : List Char :=
  let lastDD := decide (comps1.getLast? = some ['.', '.'])
  let comps2 := elimDotDots isAbs [] comps1
  let trailing2 := if lastDD then decide (comps2 ≠ []) else T1
  let trailing := trailing2 && decide (comps2.getLast? ≠ some ['.', '.'])
  let body := (if isAbs then ['/'] else []) ++ joinSlash comps2
      ++ (if trailing && decide (comps2 ≠ []) then ['/'] else [])
  if body = [] then ['.'] else body

def lexNormCore (isAbs : Bool) (raw : List (List Char)) : List Char :=
  lexNormBody isAbs
    (raw.filter fun c => decide (c ≠ [] ∧ c ≠ ['.']))
    (decide (raw.getLast? = some []) || decide (raw.getLast? = some ['.']))

def lexically_normal (p : List Char) : List Char :=
  if p = [] then []
  else lexNormCore (decide (p.head? = some '/')) (splitSlash p)

/-- `detail::resolve_path` (eph/core/shared_memory.hpp:43-48):
`path(base_dir + "/" + name).lexically_normal()`. -/
def core_resolve_path (name : List Char) (use_huge_pages : Bool) : List Char :=
  lexically_normal
    ((if use_huge_pages then "/dev/hugepages".toList else "/dev/shm".toList)
      ++ '/' :: name)

/-- `SharedMemory::resolve_full_path` (eph_channel/shared_memory.hpp:100-111):
one leading `'/'` is stripped from the name, then concatenated with the
slash-terminated base directory. -/
def chan_resolve_full_path (name : List Char) (use_huge_pages : Bool) : List Char :=
  let base := if use_huge_pages then "/dev/hugepages/".toList else "/dev/shm/".toList
  let clean := if name.head? = some '/' then name.tail else name
  base ++ clean

/-- Doubled-separator detector. -/
def hasDoubleSlash : List Char → Bool
  | [] => false
  | [_] => false
  | a :: b :: rest => (a = '/' && b = '/') || hasDoubleSlash (b :: rest)

/-- C9 counterexample: the eph_channel resolver strips only a single
leading separator, so the name "//x" resolves to "/dev/shm//x", which
contains a doubled separator and differs from the resolution of "x". -/
theorem C9_counterexample_chan_double_slash :
    chan_resolve_full_path "//x".toList false = "/dev/shm//x".toList ∧
    hasDoubleSlash (chan_resolve_full_path "//x".toList false) = true ∧
    chan_resolve_full_path "//x".toList false
      ≠ chan_resolve_full_path "x".toList false := by
  refine ⟨by decide, by decide, by decide⟩

theorem splitSlash_ne_nil : ∀ p : List Char, splitSlash p ≠ []
  | [] => by simp [splitSlash]
  | c :: rest => by
      simp only [splitSlash]
      split
      · simp
      · cases h : splitSlash rest <;> simp [consHead]

theorem splitSlash_no_slash : ∀ (p : List Char) (c : List Char),
    c ∈ splitSlash p → '/' ∉ c
  | [], c, hc => by
      simp only [splitSlash, List.mem_singleton] at hc
      subst hc
      simp
  | a :: rest, c, hc => by
      simp only [splitSlash] at hc
      by_cases ha : a = '/'
      · rw [if_pos ha] at hc
        rcases List.mem_cons.mp hc with h | h
        · subst h; simp
        · exact splitSlash_no_slash rest c h
      · rw [if_neg ha] at hc
        cases hr : splitSlash rest with
        | nil => exact absurd hr (splitSlash_ne_nil rest)
        | cons h t =>
            rw [hr] at hc
            simp only [consHead] at hc
            rcases List.mem_cons.mp hc with h1 | h1
            · subst h1
              intro hmem
              rcases List.mem_cons.mp hmem with h2 | h2
              · exact ha h2.symm
              · exact splitSlash_no_slash rest h
                  (by rw [hr]; exact List.mem_cons_self h t) h2
            · exact splitSlash_no_slash rest c
                (by rw [hr]; exact List.mem_cons_of_mem _ h1)

theorem splitSlash_append : ∀ (xs ys : List Char),
    splitSlash (xs ++ '/' :: ys) = splitSlash xs ++ splitSlash ys
  | [], ys => by simp [splitSlash]
  | c :: xs, ys => by
      have ih := splitSlash_append xs ys
      show splitSlash (c :: (xs ++ '/' :: ys)) = splitSlash (c :: xs) ++ splitSlash ys
      simp only [splitSlash]
      rw [ih]
      by_cases hc : c = '/'
      · rw [if_pos hc, if_pos hc]
        simp
      · rw [if_neg hc, if_neg hc]
        cases hxs : splitSlash xs with
        | nil => exact absurd hxs (splitSlash_ne_nil xs)
        | cons h t => simp [consHead, hxs]

theorem elimDotDots_mem (isAbs : Bool) :
    ∀ (l acc : List (List Char)) (x : List Char),
      x ∈ elimDotDots isAbs acc l → x ∈ acc ∨ x ∈ l
  | [], acc, x, hx => by
      simp only [elimDotDots] at hx
      exact Or.inl (by simpa using hx)
  | c :: rest, acc, x, hx => by
      simp only [elimDotDots] at hx
      by_cases hc : c = ['.', '.']
      · rw [if_pos hc] at hx
        by_cases hacc : acc = []
        · rw [if_pos hacc] at hx
          by_cases hA : isAbs = true
          · rw [if_pos hA] at hx
            rcases elimDotDots_mem isAbs rest [] x hx with h | h
            · simp at h
            · exact Or.inr (List.mem_cons_of_mem _ h)
          · rw [if_neg hA] at hx
            rcases elimDotDots_mem isAbs rest [c] x hx with h | h
            · simp only [List.mem_singleton] at h
              subst h
              exact Or.inr (List.mem_cons_self _ _)
            · exact Or.inr (List.mem_cons_of_mem _ h)
        · rw [if_neg hacc] at hx
          by_cases ht : acc.head? = some ['.', '.']
          · rw [if_pos ht] at hx
            rcases elimDotDots_mem isAbs rest (c :: acc) x hx with h | h
            · rcases List.mem_cons.mp h with h1 | h1
              · subst h1; exact Or.inr (List.mem_cons_self _ _)
              · exact Or.inl h1
            · exact Or.inr (List.mem_cons_of_mem _ h)
          · rw [if_neg ht] at hx
            rcases elimDotDots_mem isAbs rest acc.tail x hx with h | h
            · exact Or.inl (List.mem_of_mem_tail h)
            · exact Or.inr (List.mem_cons_of_mem _ h)
      · rw [if_neg hc] at hx
        rcases elimDotDots_mem isAbs rest (c :: acc) x hx with h | h
        · rcases List.mem_cons.mp h with h1 | h1
          · subst h1; exact Or.inr (List.mem_cons_self _ _)
          · exact Or.inl h1
        · exact Or.inr (List.mem_cons_of_mem _ h)

theorem getLast?_append_right {α : Type} (l : List α) {l' : List α}
    (h : l' ≠ []) : (l ++ l').getLast? = l'.getLast? := by
  rw [List.getLast?_append]
  cases hl : l'.getLast? with
  | none => exact absurd (List.getLast?_eq_none_iff.mp hl) h
  | some a => exact Option.or_some

theorem hasDD_cons_cons (a b : Char) (rest : List Char) :
    hasDoubleSlash (a :: b :: rest)
      = ((a = '/' && b = '/') || hasDoubleSlash (b :: rest)) := rfl

theorem noslash_noDD : ∀ (c : List Char), '/' ∉ c → hasDoubleSlash c = false
  | [], _ => rfl
  | [_], _ => rfl
  | a :: b :: rest, h => by
      rw [hasDD_cons_cons]
      have ha : a ≠ '/' := fun e => h (by simp [e])
      have hrec : '/' ∉ b :: rest := fun e => h (List.mem_cons_of_mem _ e)
      rw [noslash_noDD (b :: rest) hrec]
      simp [ha]

theorem hasDD_append : ∀ (a b : List Char), hasDoubleSlash a = false →
    hasDoubleSlash b = false →
    (a.getLast? = some '/' → b.head? ≠ some '/') →
    hasDoubleSlash (a ++ b) = false
  | [], b, _, hb, _ => hb
  | [x], b, _, hb, hj => by
      cases b with
      | nil => rfl
      | cons y bs =>
          rw [List.singleton_append, hasDD_cons_cons, hb]
          by_cases hx : x = '/'
          · have hy : y ≠ '/' := by
              have := hj (by simp [hx])
              simpa using this
            simp [hy]
          · simp [hx]
  | x :: x' :: rest, b, ha, hb, hj => by
      rw [hasDD_cons_cons] at ha
      rcases Bool.or_eq_false_iff.mp ha with ⟨ha1, ha2⟩
      have hj2 : (x' :: rest).getLast? = some '/' → b.head? ≠ some '/' := fun hl =>
        hj (by rw [List.getLast?_cons_cons]; exact hl)
      have hrec := hasDD_append (x' :: rest) b ha2 hb hj2
      show hasDoubleSlash (x :: x' :: (rest ++ b)) = false
      rw [hasDD_cons_cons, ha1]
      simpa using hrec

theorem joinSlash_ne_nil (c : List Char) (rest : List (List Char))
    (hc : c ≠ []) : joinSlash (c :: rest) ≠ [] := by
  cases rest with
  | nil => simpa [joinSlash] using hc
  | cons c' r =>
      simp only [joinSlash]
      intro h
      exact hc (List.append_eq_nil.mp h).1

theorem head_ne_slash_of_no_slash {c : List Char} (hne : c ≠ [])
    (hns : '/' ∉ c) : c.head? ≠ some '/' := by
  cases c with
  | nil => exact absurd rfl hne
  | cons a t =>
      intro h
      simp only [List.head?_cons, Option.some.injEq] at h
      exact hns (by simp [h])

theorem last_ne_slash_of_no_slash {c : List Char} (hns : '/' ∉ c) :
    c.getLast? ≠ some '/' := by
  intro h
  exact hns (List.mem_of_mem_getLast? h)

theorem joinSlash_ok : ∀ (comps : List (List Char)),
    (∀ c ∈ comps, c ≠ [] ∧ '/' ∉ c) →
    hasDoubleSlash (joinSlash comps) = false ∧
    (joinSlash comps).head? ≠ some '/' ∧
    (joinSlash comps).getLast? ≠ some '/'
  | [], _ => ⟨rfl, by simp [joinSlash], by simp [joinSlash]⟩
  | [c], h => by
      obtain ⟨hne, hns⟩ := h c (List.mem_singleton.mpr rfl)
      exact ⟨noslash_noDD c hns, head_ne_slash_of_no_slash hne hns,
             last_ne_slash_of_no_slash hns⟩
  | c :: c' :: rest, h => by
      obtain ⟨hne, hns⟩ := h c (List.mem_cons_self _ _)
      obtain ⟨hne', hns'⟩ := h c' (List.mem_cons_of_mem _ (List.mem_cons_self _ _))
      obtain ⟨ihDD, ihHead, ihLast⟩ :=
        joinSlash_ok (c' :: rest) (fun d hd => h d (List.mem_cons_of_mem _ hd))
      have hJne : joinSlash (c' :: rest) ≠ [] := joinSlash_ne_nil c' rest hne'
      have hJ : joinSlash (c :: c' :: rest) = c ++ '/' :: joinSlash (c' :: rest) := rfl
      have hDDslash : hasDoubleSlash ('/' :: joinSlash (c' :: rest)) = false := by
        cases hj0 : joinSlash (c' :: rest) with
        | nil => rfl
        | cons j0 jr =>
            rw [hasDD_cons_cons]
            have hj0' : j0 ≠ '/' := by
              intro e
              exact ihHead (by rw [hj0, e]; rfl)
            rw [hj0] at ihDD
            rw [ihDD]
            simp [hj0']
      refine ⟨?_, ?_, ?_⟩
      · rw [hJ]
        apply hasDD_append c _ (noslash_noDD c hns) hDDslash
        intro hl
        exact absurd hl (last_ne_slash_of_no_slash hns)
      · rw [hJ]
        cases c with
        | nil => exact absurd rfl hne
        | cons a t =>
            intro hcon
            simp only [List.cons_append, List.head?_cons, Option.some.injEq] at hcon
            exact hns (by simp [hcon])
      · rw [hJ]
        rw [getLast?_append_right c (by simp)]
        cases hj0 : joinSlash (c' :: rest) with
        | nil => exact absurd hj0 hJne
        | cons j0 jr =>
            rw [List.getLast?_cons_cons]
            rw [hj0] at ihLast
            exact ihLast

theorem hasDD_result (isAbs tr : Bool) (comps2 : List (List Char))
    (h2 : ∀ c ∈ comps2, c ≠ [] ∧ '/' ∉ c) :
    hasDoubleSlash ((if isAbs then ['/'] else []) ++ joinSlash comps2
        ++ (if tr && decide (comps2 ≠ []) then ['/'] else [])) = false := by
  obtain ⟨hDD, hHead, hLast⟩ := joinSlash_ok comps2 h2
  by_cases hc : comps2 = []
  · subst hc
    have ht : (tr && decide (([] : List (List Char)) ≠ [])) = false := by simp
    rw [ht]
    cases isAbs
    · rfl
    · rfl
  · have hJne : joinSlash comps2 ≠ [] := by
      cases comps2 with
      | nil => exact absurd rfl hc
      | cons c rest => exact joinSlash_ne_nil c rest (h2 c (List.mem_cons_self _ _)).1
    have hInner : hasDoubleSlash (joinSlash comps2
        ++ (if tr && decide (comps2 ≠ []) then ['/'] else [])) = false := by
      apply hasDD_append _ _ hDD
      · split
        · rfl
        · rfl
      · intro hl
        exact absurd hl hLast
    have hRassoc : (if isAbs then ['/'] else []) ++ joinSlash comps2
        ++ (if tr && decide (comps2 ≠ []) then ['/'] else [])
        = (if isAbs then ['/'] else []) ++ (joinSlash comps2
          ++ (if tr && decide (comps2 ≠ []) then ['/'] else [])) := by
      rw [List.append_assoc]
    rw [hRassoc]
    cases isAbs with
    | false => simpa using hInner
    | true =>
        show hasDoubleSlash ('/' :: (joinSlash comps2
          ++ (if tr && decide (comps2 ≠ []) then ['/'] else []))) = false
        cases hj0 : joinSlash comps2 with
        | nil => exact absurd hj0 hJne
        | cons j0 jr =>
            have hj0' : j0 ≠ '/' := by
              intro e
              exact hHead (by rw [hj0, e]; rfl)
            rw [hj0] at hInner
            show hasDoubleSlash ('/' :: j0 :: (jr
              ++ (if tr && decide (comps2 ≠ []) then ['/'] else []))) = false
            rw [hasDD_cons_cons]
            rw [show (j0 :: (jr ++ (if tr && decide (comps2 ≠ []) then ['/'] else [])))
              = (j0 :: jr) ++ (if tr && decide (comps2 ≠ []) then ['/'] else []) from rfl]
            rw [hInner]
            simp [hj0']

theorem lexNormBody_noDD (isAbs : Bool) (comps1 : List (List Char)) (T1 : Bool)
    (h : ∀ c ∈ comps1, c ≠ [] ∧ '/' ∉ c) :
    hasDoubleSlash (lexNormBody isAbs comps1 T1) = false := by
  have h2 : ∀ c ∈ elimDotDots isAbs [] comps1, c ≠ [] ∧ '/' ∉ c := by
    intro c hcm
    rcases elimDotDots_mem isAbs comps1 [] c hcm with h0 | h0
    · simp at h0
    · exact h c h0
  have hdot : ∀ b : List Char, hasDoubleSlash b = false →
      hasDoubleSlash (if b = [] then ['.'] else b) = false := by
    intro b hb
    split
    · rfl
    · exact hb
  simp only [lexNormBody]
  exact hdot _ (hasDD_result isAbs _ _ h2)

theorem lexNorm_noDD (p : List Char) :
    hasDoubleSlash (lexically_normal p) = false := by
  unfold lexically_normal
  split
  · rfl
  · unfold lexNormCore
    apply lexNormBody_noDD
    intro c hcm
    have hm := List.mem_filter.mp hcm
    have hp := of_decide_eq_true hm.2
    exact ⟨hp.1, splitSlash_no_slash p c hm.1⟩

theorem lexNorm_collapse (xs ys : List Char) :
    lexically_normal (xs ++ '/' :: '/' :: ys)
      = lexically_normal (xs ++ '/' :: ys) := by
  have hne1 : xs ++ '/' :: '/' :: ys ≠ [] := by cases xs <;> simp
  have hne2 : xs ++ '/' :: ys ≠ [] := by cases xs <;> simp
  unfold lexically_normal
  rw [if_neg hne1, if_neg hne2]
  have hhead : (xs ++ '/' :: '/' :: ys).head? = (xs ++ '/' :: ys).head? := by
    rw [List.head?_append, List.head?_append]
    rfl
  rw [hhead]
  have hsplit1 : splitSlash (xs ++ '/' :: '/' :: ys)
      = splitSlash xs ++ ([] :: splitSlash ys) := by
    rw [splitSlash_append xs ('/' :: ys)]
    rfl
  have hsplit2 : splitSlash (xs ++ '/' :: ys) = splitSlash xs ++ splitSlash ys :=
    splitSlash_append xs ys
  rw [hsplit1, hsplit2]
  unfold lexNormCore
  rw [List.filter_append, List.filter_append]
  have hfil : List.filter (fun c => decide (c ≠ [] ∧ c ≠ ['.']))
      ([] :: splitSlash ys)
      = List.filter (fun c => decide (c ≠ [] ∧ c ≠ ['.'])) (splitSlash ys) := by
    simp
  rw [hfil]
  have hg1 : (splitSlash xs ++ ([] :: splitSlash ys)).getLast?
      = (splitSlash ys).getLast? := by
    rw [getLast?_append_right _ (by simp)]
    cases hy : splitSlash ys with
    | nil => exact absurd hy (splitSlash_ne_nil ys)
    | cons a t => rw [List.getLast?_cons_cons]
  have hg2 : (splitSlash xs ++ splitSlash ys).getLast?
      = (splitSlash ys).getLast? :=
    getLast?_append_right _ (splitSlash_ne_nil ys)
  rw [hg1, hg2]

/-- C9 (amended): path resolution is a pure function of
(name, use_huge_pages) with the name placed beneath /dev/shm
(or /dev/hugepages).  The eph/core resolver fully normalizes via
`lexically_normal`: its result never contains a doubled separator and a
leading separator on the name does not change the result.  The
eph_channel resolver strips exactly one leading separator and performs
no other normalization, so "/x" and "x" agree but "//x" resolves to
"/dev/shm//x", which keeps a doubled separator. -/
theorem C9_amended_path_resolution (name : List Char) (huge : Bool) :
    hasDoubleSlash (core_resolve_path name huge) = false ∧
    core_resolve_path ('/' :: name) huge = core_resolve_path name huge ∧
    chan_resolve_full_path ('/' :: name) huge
      = (if huge then "/dev/hugepages/".toList else "/dev/shm/".toList) ++ name ∧
    chan_resolve_full_path name huge
      = (if huge then "/dev/hugepages/".toList else "/dev/shm/".toList)
        ++ (if name.head? = some '/' then name.tail else name) := by
  refine ⟨lexNorm_noDD _, ?_, ?_, rfl⟩
  · unfold core_resolve_path
    exact lexNorm_collapse _ name
  · unfold chan_resolve_full_path
    simp

end Eph

